import Mathlib

/-!
Verification development for the tele-agent skill execution and
tool-orchestration engine.

The Python sources are shallowly embedded: pure logic (cron parsing, the
markdown section extraction, the tool-schema derivation, the registry and
scheduler state transitions) is translated into executable Lean functions on
`List Char` / `String`; effectful boundaries (the CPython interpreter running
skill code, pip installs, the thread pool, the Telegram job queue clock) are
modelled as explicit outcome parameters.  Python strings are modelled as
`List Char` (`Chars`) where character-level scanning matters, ASCII semantics
for `str.isdigit` / `int()` / whitespace.
-/

/-- Python strings, as character lists. -/
abbrev Chars := List Char

/-- Convert a Lean string literal to the character-list model. -/
def pys (s : String) : Chars := s.data

/-- Python `str` whitespace (ASCII subset): the characters stripped by
`str.strip()` and split on by `str.split()`. -/
def pyWsChar (c : Char) : Bool :=
  c = ' ' || c = '\t' || c = '\n' || c = '\r' || c = '\x0b' || c = '\x0c'

/-- Remove trailing whitespace (Python `str.rstrip()`). -/
def stripEndWs (l : Chars) : Chars :=
  (l.reverse.dropWhile pyWsChar).reverse

/-- Python `str.strip()`. -/
def pyStrip (l : Chars) : Chars :=
  stripEndWs (l.dropWhile pyWsChar)

/-- Literal (case-sensitive) prefix test on character lists. -/
def litPre : Chars → Chars → Bool
  | [], _ => true
  | _ :: _, [] => false
  | p :: ps, c :: cs => (p = c) && litPre ps cs

/-- Split off everything before the first occurrence of `sub`:
`breakAtSub l sub = some (pre, suf)` with `l = pre ++ suf`, `sub` a prefix of
`suf`, and `pre` shortest possible; `none` when `sub` does not occur. -/
def breakAtSub : Chars → Chars → Option (Chars × Chars)
  | [], sub => if sub = [] then some ([], []) else none
  | c :: rest, sub =>
    if litPre sub (c :: rest) then some ([], c :: rest)
    else (breakAtSub rest sub).map fun pr => (c :: pr.1, pr.2)

/-- Python's substring test `sub in l`. -/
def containsSub (l sub : Chars) : Bool :=
  (breakAtSub l sub).isSome

/-- Python `str.split(sep)` for a one-character separator (keeps empties). -/
def splitOnC (sep : Char) : Chars → List Chars
  | [] => [[]]
  | c :: rest =>
    if c = sep then [] :: splitOnC sep rest
    else
      match splitOnC sep rest with
      | t :: ts => (c :: t) :: ts
      | [] => [[c]]

/-- Accumulator for whitespace splitting. -/
def splitWsAux : Chars → Chars → List Chars
  | [], acc => if acc.isEmpty then [] else [acc.reverse]
  | c :: rest, acc =>
    if pyWsChar c then
      if acc.isEmpty then splitWsAux rest []
      else acc.reverse :: splitWsAux rest []
    else splitWsAux rest (c :: acc)

/-- Python `str.split()` with no argument: split on whitespace runs,
dropping empty tokens. -/
def splitWs (l : Chars) : List Chars := splitWsAux l []

/-- Python `str.isdigit()` (ASCII model): nonempty and all decimal digits. -/
def pyIsDigitStr (l : Chars) : Bool :=
  !l.isEmpty && l.all Char.isDigit

/-- Digit-run parser for `int()`, allowing single underscores between
digits as Python 3 does. -/
def pyIntDigitsAux : Chars → Nat → Option Nat
  | [], acc => some acc
  | '_' :: rest, acc =>
    match rest with
    | c :: rest' =>
      if c.isDigit then pyIntDigitsAux rest' (acc * 10 + (c.toNat - 48)) else none
    | [] => none
  | c :: rest, acc =>
    if c.isDigit then pyIntDigitsAux rest (acc * 10 + (c.toNat - 48)) else none

/-- Unsigned part of Python `int()`: at least one digit, underscores only
between digits. -/
def pyNatOpt : Chars → Option Nat
  | [] => none
  | c :: rest => if c.isDigit then pyIntDigitsAux rest (c.toNat - 48) else none

/-- Python `int(s)` (ASCII model): strip whitespace, optional sign,
decimal digits; `none` models a raised `ValueError`. -/
def pyIntOpt (l : Chars) : Option Int :=
  match pyStrip l with
  | '+' :: rest => (pyNatOpt rest).map Int.ofNat
  | '-' :: rest => (pyNatOpt rest).map fun n => -(Int.ofNat n)
  | rest => (pyNatOpt rest).map Int.ofNat

/-- Substring test on Lean strings (Python `in`). -/
def strContains (l sub : String) : Bool :=
  containsSub l.data sub.data

/-- Python `a or b` on strings: `b` when `a` is empty (falsy), else `a`. -/
def pyOrS (a b : String) : String :=
  if a = "" then b else a

/-! ## Skill Executor (`src/skills/executor.py`)

`SkillExecutor.execute` submits `_execute_code` to a one-worker thread pool
and waits with a timeout.  The interpreter-level behaviour of the skill code
is modelled as an `ExecOutcome`; the pip install step as an `InstallOutcome`.
A raised Python exception carries its class name, message, and whether the
class is a subclass of `Exception` (e.g. `SystemExit` and
`KeyboardInterrupt` derive only from `BaseException`, so
`except Exception` at the end of `execute` does not catch them, while the
worker of `concurrent.futures` transports any `BaseException` into the
future and `future.result()` re-raises it in the caller). -/

/-- A raised Python exception value. -/
structure PyExc where
  ename : String
  emsg : String
  isExceptionSubclass : Bool
deriving DecidableEq, Repr

/-- Outcome of running `_execute_code` (executing the skill body and calling
its entry function) on the worker thread. -/
inductive ExecOutcome where
  /-- The entry function returned `v`; `so`/`se` are the captured streams. -/
  | returns (v so se : String)
  /-- The code raised `e` (this includes the executor's own
  `ValueError("Function ... not found in skill code")`). -/
  | raises (e : PyExc)
  /-- Wall-clock time exceeded the configured timeout
  (`future.result(timeout=...)` raises `FuturesTimeoutError`). -/
  | timesOut
deriving DecidableEq, Repr

/-- Outcome of `_install_dependencies`. -/
inductive InstallOutcome where
  | ok
  | failed (msg : String)
deriving DecidableEq, Repr

/-- Model of `ExecutionResult` (executor.py lines 17-29). -/
structure ExecResultM where
  success : Bool
  result : Option String
  error : Option String
  stdoutS : String
  stderrS : String
deriving DecidableEq, Repr

/-- Abbreviated model of `traceback.format_exc()` for the failure branch. -/
def tracebackOf (e : PyExc) : String :=
  "Traceback (most recent call last):\n" ++ e.ename ++ ": " ++ e.emsg

/-- The `try ... except FuturesTimeoutError ... except Exception` core of
`SkillExecutor.execute` (executor.py lines 196-225). -/
def executeCore (timeout : Nat) : ExecOutcome → Except PyExc ExecResultM
  | .returns v so se => .ok ⟨true, some v, none, so, se⟩
  | .timesOut =>
    .ok ⟨false, none,
      some ("Execution timed out after " ++ toString timeout ++ " seconds"), "", ""⟩
  | .raises e =>
    if e.isExceptionSubclass then
      .ok ⟨false, none, some (e.ename ++ ": " ++ e.emsg), "", tracebackOf e⟩
    else
      .error e

/-- `SkillExecutor.execute` (executor.py lines 177-225): optional dependency
installation, then the guarded execution.  `.error` models an exception
escaping to the caller. -/
def executeSkill (timeout : Nat) (autoInstall : Bool) (dependencies : List String)
    (inst : InstallOutcome) (outcome : ExecOutcome) : Except PyExc ExecResultM :=
  if autoInstall && !dependencies.isEmpty then
    match inst with
    | .failed m =>
      .ok ⟨false, none, some ("Dependency installation failed: " ++ m), "", ""⟩
    | .ok => executeCore timeout outcome
  else executeCore timeout outcome

/-- Helper: containment of `b` in the middle of `a ++ b ++ c`. -/
theorem litPre_self_append (b c : Chars) : litPre b (b ++ c) = true := by
  induction b with
  | nil => rfl
  | cons x xs ih => simp [litPre, ih]

theorem containsSub_nil_sub (l : Chars) : containsSub l [] = true := by
  cases l <;> simp [containsSub, breakAtSub, litPre]

@[simp] theorem containsSub_cons (c : Char) (rest sub : Chars) :
    containsSub (c :: rest) sub = (litPre sub (c :: rest) || containsSub rest sub) := by
  rw [containsSub, breakAtSub]
  by_cases h : litPre sub (c :: rest) = true
  · simp [h]
  · rw [Bool.not_eq_true] at h
    simp [h, containsSub, Option.isSome_map]

theorem containsSub_append_mid (a b c : Chars) :
    containsSub (a ++ b ++ c) b = true := by
  induction a with
  | nil =>
    cases hb : b with
    | nil => exact containsSub_nil_sub c
    | cons x xs =>
      simp only [List.nil_append, ← hb]
      cases hbc : b ++ c with
      | nil =>
        rcases List.append_eq_nil.mp hbc with ⟨h1, _⟩
        rw [hb] at h1; cases h1
      | cons y ys =>
        rw [containsSub_cons, ← hbc, litPre_self_append, Bool.true_or]
  | cons y ys ih =>
    simp only [List.cons_append, containsSub_cons]
    simp only [List.append_assoc] at ih ⊢
    rw [ih, Bool.or_true]

/-- When the dependency-install step is passed (auto-install off, no
dependencies, or a successful install), `execute` reduces to the guarded
execution core. -/
theorem executeSkill_eq_core (t : Nat) (ai : Bool) (deps : List String)
    (inst : InstallOutcome) (h : ai = false ∨ deps = [] ∨ inst = InstallOutcome.ok)
    (oc : ExecOutcome) : executeSkill t ai deps inst oc = executeCore t oc := by
  unfold executeSkill
  rcases h with h | h | h
  · simp [h]
  · simp [h]
  · subst h
    by_cases hc : (ai && !deps.isEmpty) = true <;> simp [hc]

/-- Claim C1, counterexample: the claim says `execute` never raises an
exception to its caller for any exception raised by the skill code.  But a
skill body that raises `SystemExit` (a `BaseException` that is not an
`Exception` subclass, re-raised in the caller by `future.result()`) is not
caught by the `except Exception` handler in executor.py line 220, so
`execute` raises it to its caller instead of returning a failed
`ExecutionResult`. -/
theorem c1_execute_systemexit_escapes :
    executeSkill 30 true [] .ok (.raises ⟨"SystemExit", "", false⟩)
      = Except.error ⟨"SystemExit", "", false⟩ := rfl

/-- Claim C1, amended: provided the dependency-install step passes, every
exception from the Python `Exception` hierarchy raised by the skill code
yields a failed `ExecutionResult` carrying `"{type}: {message}"`; a timeout
yields a failed result whose error message contains the configured limit; a
successful execution has no error field; and the only way `execute` can
raise to its caller is a raised exception outside the `Exception` hierarchy
(such as `SystemExit`). -/
theorem c1_execute_failure_conversion :
    ∀ (t : Nat) (ai : Bool) (deps : List String) (inst : InstallOutcome),
      (ai = false ∨ deps = [] ∨ inst = InstallOutcome.ok) →
      (∀ e : PyExc, e.isExceptionSubclass = true →
        executeSkill t ai deps inst (.raises e)
          = .ok ⟨false, none, some (e.ename ++ ": " ++ e.emsg), "", tracebackOf e⟩) ∧
      (executeSkill t ai deps inst .timesOut
          = .ok ⟨false, none,
              some ("Execution timed out after " ++ toString t ++ " seconds"), "", ""⟩) ∧
      strContains ("Execution timed out after " ++ toString t ++ " seconds")
          (toString t) = true ∧
      (∀ v so se, executeSkill t ai deps inst (.returns v so se)
          = .ok ⟨true, some v, none, so, se⟩) ∧
      (∀ oc e2, executeSkill t ai deps inst oc = .error e2 →
        oc = .raises e2 ∧ e2.isExceptionSubclass = false) := by
  intro t ai deps inst h
  refine ⟨?_, ?_, ?_, ?_, ?_⟩
  · intro e he
    rw [executeSkill_eq_core t ai deps inst h]
    simp [executeCore, he]
  · rw [executeSkill_eq_core t ai deps inst h]
    rfl
  · rw [strContains, String.data_append, String.data_append]
    exact containsSub_append_mid _ _ _
  · intro v so se
    rw [executeSkill_eq_core t ai deps inst h]
    rfl
  · intro oc e2 heq
    rw [executeSkill_eq_core t ai deps inst h] at heq
    cases oc with
    | returns v so se => cases heq
    | timesOut => cases heq
    | raises e =>
      rw [executeCore] at heq
      by_cases hsub : e.isExceptionSubclass = true
      · rw [if_pos hsub] at heq; cases heq
      · rw [Bool.not_eq_true] at hsub
        rw [hsub] at heq
        simp only [Bool.false_eq_true, if_false, Except.error.injEq] at heq
        subst heq
        exact ⟨rfl, hsub⟩

/-- Witness for C1: the amended theorem applied at a concrete skill
execution raising an ordinary `ValueError`. -/
theorem c1_execute_failure_conversion_witness :
    executeSkill 30 true ["requests"] .ok (.raises ⟨"ValueError", "boom", true⟩)
      = .ok ⟨false, none, some ("ValueError" ++ ": " ++ "boom"), "",
          tracebackOf ⟨"ValueError", "boom", true⟩⟩ :=
  (c1_execute_failure_conversion 30 true ["requests"] .ok
    (Or.inr (Or.inr rfl))).1 ⟨"ValueError", "boom", true⟩ rfl

/-! ## Tool Registry: type-hint mapping (`src/core/tool_registry.py`)

`ToolRegistry.TYPE_MAP` (lines 29-37) and `_python_type_to_json_schema`
(lines 100-123).  The `Optional[...]` unwrapping in the source is a
recursive call on the bracket-stripped inner text; it is embedded with an
explicit fuel argument (structurally ≥ the input length, which strictly
decreases at each unwrap) so that the function stays kernel-reducible. -/

/-- Association-list lookup (first match), modelling Python `dict` access. -/
def alGet {κ β : Type} [DecidableEq κ] (k : κ) : List (κ × β) → Option β
  | [] => none
  | (k', v) :: rest => if k' = k then some v else alGet k rest

/-- Association-list insert: replace in place, else append
(Python `d[k] = v`). -/
def alInsert {κ β : Type} [DecidableEq κ] (k : κ) (v : β) :
    List (κ × β) → List (κ × β)
  | [] => [(k, v)]
  | (k', v') :: rest =>
    if k' = k then (k, v) :: rest else (k', v') :: alInsert k v rest

/-- `ToolRegistry.TYPE_MAP`. -/
def typeMap : List (Chars × Chars) :=
  [(pys "str", pys "string"), (pys "int", pys "integer"),
   (pys "float", pys "number"), (pys "bool", pys "boolean"),
   (pys "list", pys "array"), (pys "dict", pys "object"),
   (pys "None", pys "null")]

/-- Body of `_python_type_to_json_schema` with explicit recursion fuel. -/
def pyTypeToJsonAux : Nat → Chars → Chars
  | 0, _ => pys "string"
  | fuel + 1, pyType =>
    let t := pyStrip pyType
    match alGet t typeMap with
    | some j => j
    | none =>
      if litPre (pys "Optional[") t then
        pyTypeToJsonAux fuel ((t.drop 9).dropLast)
      else if litPre (pys "list[") t || litPre (pys "List[") t then pys "array"
      else if litPre (pys "dict[") t || litPre (pys "Dict[") t then pys "object"
      else pys "string"

/-- `ToolRegistry._python_type_to_json_schema`. -/
def pythonTypeToJsonSchema (pyType : Chars) : Chars :=
  pyTypeToJsonAux (pyType.length + 1) pyType

theorem litPre_length_le {p l : Chars} (h : litPre p l = true) :
    p.length ≤ l.length := by
  induction p generalizing l with
  | nil => exact Nat.zero_le _
  | cons x xs ih =>
    cases l with
    | nil => cases h
    | cons c cs =>
      rw [litPre, Bool.and_eq_true] at h
      exact Nat.succ_le_succ (ih h.2)

theorem stripEndWs_length_le (l : Chars) : (stripEndWs l).length ≤ l.length := by
  rw [stripEndWs, List.length_reverse]
  calc (l.reverse.dropWhile pyWsChar).length
      ≤ l.reverse.length := (List.dropWhile_sublist pyWsChar).length_le
    _ = l.length := List.length_reverse _

theorem pyStrip_length_le (l : Chars) : (pyStrip l).length ≤ l.length := by
  calc (pyStrip l).length
      ≤ (l.dropWhile pyWsChar).length := stripEndWs_length_le _
    _ ≤ l.length := (List.dropWhile_sublist pyWsChar).length_le

theorem optionalArg_length_lt (t : Chars)
    (h : litPre (pys "Optional[") (pyStrip t) = true) :
    (((pyStrip t).drop 9).dropLast).length < t.length := by
  have h9 : 9 ≤ (pyStrip t).length := litPre_length_le h
  have hs : (pyStrip t).length ≤ t.length := pyStrip_length_le t
  rw [List.length_dropLast, List.length_drop]
  omega

/-- The fuel argument is irrelevant once it exceeds the input length. -/
theorem pyTypeAux_fuel_irrel :
    ∀ (f1 f2 : Nat) (t : Chars), t.length < f1 → t.length < f2 →
      pyTypeToJsonAux f1 t = pyTypeToJsonAux f2 t := by
  intro f1
  induction f1 with
  | zero => intro f2 t h1; omega
  | succ f1' ih =>
    intro f2 t h1 h2
    cases f2 with
    | zero => omega
    | succ f2' =>
      rw [pyTypeToJsonAux, pyTypeToJsonAux]
      cases halg : alGet (pyStrip t) typeMap with
      | some j => simp [halg]
      | none =>
        simp only [halg]
        by_cases hop : litPre (pys "Optional[") (pyStrip t) = true
        · have hlt := optionalArg_length_lt t hop
          simp only [hop, if_true]
          exact ih f2' _ (by omega) (by omega)
        · rw [Bool.not_eq_true] at hop
          simp [hop]

/-! ## Tool Registry: signature parsing and tool definitions

`ToolRegistry._parse_function_signature` (lines 48-98) walks the AST of the
skill code, finds `def execute`, and iterates over `node.args.args` with
`node.args.defaults`.  The AST-level inputs are embedded directly: the
positional parameter list (name plus optional rendered annotation text) and
the list of default values.  A default value is `Option String`: `none`
models the Python value `None` (also the initial value when a parameter has
no default), matching the source where `prop["default"]` is emitted only
when the default is not `None`. -/

/-- One entry of `node.args.args`: parameter name and optional annotation
text (as rendered by `ast.unparse`). -/
structure PyArg where
  name : String
  anno : Option String
deriving DecidableEq, Repr

/-- A Python default value as stored in `ParameterInfo.default`. -/
abbrev PyVal := Option String

/-- Model of `ParameterInfo` (tool_registry.py lines 15-22). -/
structure ParameterInfo where
  name : String
  typeHint : String
  dflt : PyVal
  hasDefault : Bool
  descr : String
deriving DecidableEq, Repr

/-- The parameter loop of `_parse_function_signature`: `defaultsStart =
len(args) - len(defaults)`; any parameter named `self` is skipped (at any
position); `has_default = i >= defaults_start`. -/
def paramsAux (defaultsStart : Nat) (defaults : List PyVal) :
    List PyArg → Nat → List ParameterInfo
  | [], _ => []
  | a :: rest, i =>
    if a.name = "self" then paramsAux defaultsStart defaults rest (i + 1)
    else
      { name := a.name,
        typeHint := a.anno.getD "str",
        dflt := if defaultsStart ≤ i then defaults.getD (i - defaultsStart) none
                else none,
        hasDefault := defaultsStart ≤ i,
        descr := "" } :: paramsAux defaultsStart defaults rest (i + 1)

/-- `ToolRegistry._parse_function_signature` on the `execute` signature. -/
def parseFunctionSignature (args : List PyArg) (defaults : List PyVal) :
    List ParameterInfo :=
  paramsAux (args.length - defaults.length) defaults args 0

/-- One property of the emitted JSON-Schema `properties` object. -/
structure SchemaProp where
  jsonType : Chars
  descr : String
  dflt : Option String
deriving DecidableEq, Repr

/-- The per-parameter property built in `skill_to_tool_definition`
(lines 141-153). -/
def mkSchemaProp (p : ParameterInfo) : SchemaProp :=
  { jsonType := pythonTypeToJsonSchema (pys p.typeHint),
    descr := pyOrS p.descr ("Parameter: " ++ p.name),
    dflt := if p.hasDefault then p.dflt else none }

/-- The loop of `skill_to_tool_definition` filling `properties` (a dict
keyed by parameter name) and `required`. -/
def buildSchemaAux : List ParameterInfo → List (String × SchemaProp) →
    List String → List (String × SchemaProp) × List String
  | [], props, required => (props, required)
  | p :: rest, props, required =>
    buildSchemaAux rest (alInsert p.name (mkSchemaProp p) props)
      (if p.hasDefault then required else required ++ [p.name])

/-- Model of `ToolDefinition` with the derived parameter schema. -/
structure ToolDefM where
  name : String
  descr : String
  properties : List (String × SchemaProp)
  required : List String
deriving DecidableEq, Repr

/-- A skill as seen by the registry: store fields plus the AST-level
`execute` signature parsed from its code. -/
structure RSkill where
  name : String
  title : String
  descr : String
  enabled : Bool
  args : List PyArg
  defaults : List PyVal
deriving DecidableEq, Repr

/-- `ToolRegistry.skill_to_tool_definition` (lines 125-173). -/
def skillToToolDefinition (s : RSkill) : ToolDefM :=
  let params := parseFunctionSignature s.args s.defaults
  let pr := buildSchemaAux params [] []
  { name := s.name, descr := pyOrS s.descr s.title,
    properties := pr.1, required := pr.2 }

theorem paramsAux_names (ds : Nat) (dfl : List PyVal) :
    ∀ (args : List PyArg) (i : Nat),
      (paramsAux ds dfl args i).map ParameterInfo.name
        = (args.filter (fun a => a.name != "self")).map PyArg.name := by
  intro args
  induction args with
  | nil => intro i; rfl
  | cons a rest ih =>
    intro i
    by_cases h : a.name = "self"
    · simp [paramsAux, h, ih]
    · simp [paramsAux, h, ih (i + 1)]

theorem paramsAux_length (ds : Nat) (dfl : List PyVal)
    (args : List PyArg) (i : Nat) :
    (paramsAux ds dfl args i).length
      = (args.filter (fun a => a.name != "self")).length := by
  have h := paramsAux_names ds dfl args i
  have h1 := congrArg List.length h
  simpa using h1

theorem paramsAux_required_names (ds : Nat) (dfl : List PyVal) :
    ∀ (args : List PyArg) (i : Nat),
      ((paramsAux ds dfl args i).filter (fun p => !p.hasDefault)).map
          ParameterInfo.name
        = ((List.enumFrom i args).filter
            (fun q => q.2.name != "self" && decide (q.1 < ds))).map
            (fun q => q.2.name) := by
  intro args
  induction args with
  | nil => intro i; rfl
  | cons a rest ih =>
    intro i
    by_cases h : a.name = "self"
    · simp [paramsAux, h, List.enumFrom, ih (i + 1)]
    · by_cases hd : ds ≤ i
      · have : ¬ i < ds := by omega
        simp [paramsAux, h, hd, List.enumFrom, ih (i + 1), this]
      · have : i < ds := by omega
        simp [paramsAux, h, hd, List.enumFrom, ih (i + 1), this]

theorem buildSchemaAux_required :
    ∀ (ps : List ParameterInfo) (props : List (String × SchemaProp))
      (req : List String),
      (buildSchemaAux ps props req).2
        = req ++ (ps.filter (fun p => !p.hasDefault)).map ParameterInfo.name := by
  intro ps
  induction ps with
  | nil => intro props req; simp [buildSchemaAux]
  | cons p rest ih =>
    intro props req
    by_cases h : p.hasDefault = true
    · simp [buildSchemaAux, h, ih]
    · rw [Bool.not_eq_true] at h
      simp [buildSchemaAux, h, ih]

theorem alInsert_length_of_not_mem {β : Type} (k : String) (v : β)
    (l : List (String × β)) (h : k ∉ l.map Prod.fst) :
    (alInsert k v l).length = l.length + 1 := by
  induction l with
  | nil => rfl
  | cons e rest ih =>
    simp only [List.map_cons, List.mem_cons] at h
    push_neg at h
    rw [alInsert]
    rw [if_neg (by exact fun hh => h.1 hh.symm)]
    simp [ih h.2]

theorem alInsert_keys_of_not_mem {β : Type} (k : String) (v : β)
    (l : List (String × β)) (h : k ∉ l.map Prod.fst) :
    (alInsert k v l).map Prod.fst = l.map Prod.fst ++ [k] := by
  induction l with
  | nil => rfl
  | cons e rest ih =>
    simp only [List.map_cons, List.mem_cons] at h
    push_neg at h
    rw [alInsert]
    rw [if_neg (by exact fun hh => h.1 hh.symm)]
    simp [ih h.2]

theorem buildSchemaAux_props_length :
    ∀ (ps : List ParameterInfo) (props : List (String × SchemaProp))
      (req : List String),
      (ps.map ParameterInfo.name).Nodup →
      (∀ p ∈ ps, p.name ∉ props.map Prod.fst) →
      (buildSchemaAux ps props req).1.length = props.length + ps.length := by
  intro ps
  induction ps with
  | nil => intro props req _ _; simp [buildSchemaAux]
  | cons p rest ih =>
    intro props req hnd hdisj
    rw [List.map_cons, List.nodup_cons] at hnd
    have hfresh : p.name ∉ props.map Prod.fst := hdisj p (by simp)
    have hkeys := alInsert_keys_of_not_mem p.name (mkSchemaProp p) props hfresh
    have hlen := alInsert_length_of_not_mem p.name (mkSchemaProp p) props hfresh
    have hdisj' : ∀ q ∈ rest,
        q.name ∉ (alInsert p.name (mkSchemaProp p) props).map Prod.fst := by
      intro q hq
      rw [hkeys]
      simp only [List.mem_append, List.mem_singleton]
      rintro (hmem | heq)
      · exact hdisj q (List.mem_cons_of_mem _ hq) hmem
      · exact hnd.1 (heq ▸ List.mem_map_of_mem ParameterInfo.name hq)
    rw [buildSchemaAux, ih _ _ hnd.2 hdisj', hlen]
    simp [Nat.add_assoc, Nat.add_comm 1]

theorem params_names_nodup (args : List PyArg) (dfl : List PyVal)
    (hnd : (args.map PyArg.name).Nodup) :
    ((parseFunctionSignature args dfl).map ParameterInfo.name).Nodup := by
  rw [parseFunctionSignature, paramsAux_names]
  exact ((List.filter_sublist _).map PyArg.name).nodup hnd

theorem stripEndWs_eq_self (l : Chars)
    (hl : ∀ c, l.getLast? = some c → pyWsChar c = false) : stripEndWs l = l := by
  rw [stripEndWs]
  cases hrev : l.reverse with
  | nil =>
    have : l = [] := by simpa using congrArg List.reverse hrev
    subst this; rfl
  | cons c t =>
    have hc : l.getLast? = some c := by rw [← List.head?_reverse, hrev]; rfl
    rw [List.dropWhile_cons, hl c hc]
    simp [← hrev]

theorem pyStrip_eq_self_of (l : Chars)
    (hh : ∀ c, l.head? = some c → pyWsChar c = false)
    (hl : ∀ c, l.getLast? = some c → pyWsChar c = false) : pyStrip l = l := by
  rw [pyStrip]
  cases l with
  | nil => rfl
  | cons c t =>
    rw [List.dropWhile_cons, hh c rfl]
    simp only [Bool.false_eq_true, if_false]
    exact stripEndWs_eq_self _ hl

theorem alGet_mem_values {κ β : Type} [DecidableEq κ] (k : κ) (v : β) :
    ∀ (l : List (κ × β)), alGet k l = some v → v ∈ l.map Prod.snd := by
  intro l
  induction l with
  | nil => intro h; cases h
  | cons e rest ih =>
    intro h
    rw [alGet] at h
    by_cases he : e.1 = k
    · rw [if_pos he, Option.some.injEq] at h
      subst h; simp
    · rw [if_neg he] at h
      simp [ih h]

/-- All seven JSON type strings the mapping can emit. -/
def jsonTypeUniverse : List Chars :=
  [pys "string", pys "integer", pys "number", pys "boolean",
   pys "array", pys "object", pys "null"]

theorem pyTypeAux_mem_universe :
    ∀ (fuel : Nat) (t : Chars), pyTypeToJsonAux fuel t ∈ jsonTypeUniverse := by
  intro fuel
  induction fuel with
  | zero => intro t; simp [pyTypeToJsonAux, jsonTypeUniverse]
  | succ f ih =>
    intro t
    rw [pyTypeToJsonAux]
    cases halg : alGet (pyStrip t) typeMap with
    | some j =>
      simp only [halg]
      have := alGet_mem_values _ _ _ halg
      simp only [typeMap, List.map_cons, List.map_nil] at this
      simp only [jsonTypeUniverse]
      fin_cases this <;> simp [pys]
    | none =>
      simp only [halg]
      by_cases hop : litPre (pys "Optional[") (pyStrip t) = true
      · simpa [hop] using ih _
      · rw [Bool.not_eq_true] at hop
        simp only [hop, Bool.false_eq_true, if_false]
        by_cases h1 : (litPre (pys "list[") (pyStrip t)
            || litPre (pys "List[") (pyStrip t)) = true
        · simp [h1, jsonTypeUniverse]
        · rw [Bool.not_eq_true] at h1
          simp only [h1, Bool.false_eq_true, if_false]
          by_cases h2 : (litPre (pys "dict[") (pyStrip t)
              || litPre (pys "Dict[") (pyStrip t)) = true
          · simp [h2, jsonTypeUniverse]
          · rw [Bool.not_eq_true] at h2
            simp [h2, jsonTypeUniverse]

/-- Claim C6, counterexample: the claim says every declared hint maps to one
of exactly the six JSON types; but `TYPE_MAP` itself contains
`"None": "null"`, so the annotation `None` maps to a seventh type `null`. -/
theorem c6_none_maps_to_null :
    pythonTypeToJsonSchema (pys "None") = pys "null"
      ∧ ¬ (pys "null" ∈ [pys "string", pys "integer", pys "number",
            pys "boolean", pys "array", pys "object"]) := by decide

/-- Claim C6, amended: the mapping lands in the *seven* JSON types
{string, integer, number, boolean, array, object, null}: `str`→string,
`int`→integer, `float`→number, `bool`→boolean, `list`/`list[...]`/`List[...]`
→array, `dict`/`dict[...]`/`Dict[...]`→object, and `None`→null; `Optional[...]`
wrappers are unwrapped *recursively* (any nesting depth), not just one
level; an absent hint is treated as `str` and an unrecognized hint maps to
string. -/
theorem c6_type_mapping :
    (∀ s : Chars, pythonTypeToJsonSchema s ∈ jsonTypeUniverse)
      ∧ pythonTypeToJsonSchema (pys "str") = pys "string"
      ∧ pythonTypeToJsonSchema (pys "int") = pys "integer"
      ∧ pythonTypeToJsonSchema (pys "float") = pys "number"
      ∧ pythonTypeToJsonSchema (pys "bool") = pys "boolean"
      ∧ pythonTypeToJsonSchema (pys "list") = pys "array"
      ∧ pythonTypeToJsonSchema (pys "list[int]") = pys "array"
      ∧ pythonTypeToJsonSchema (pys "dict") = pys "object"
      ∧ pythonTypeToJsonSchema (pys "dict[str, int]") = pys "object"
      ∧ pythonTypeToJsonSchema (pys "None") = pys "null"
      ∧ pythonTypeToJsonSchema (pys "MyClass") = pys "string"
      ∧ pythonTypeToJsonSchema (pys "Optional[Optional[int]]") = pys "integer"
      ∧ (∀ s : Chars,
          pythonTypeToJsonSchema (pys "Optional[" ++ s ++ pys "]")
            = pythonTypeToJsonSchema s) := by
  refine ⟨fun s => pyTypeAux_mem_universe _ s, by decide, by decide, by decide,
    by decide, by decide, by decide, by decide, by decide, by decide, by decide,
    by decide, ?_⟩
  intro s
  have hw : pyStrip (pys "Optional[" ++ s ++ pys "]")
      = pys "Optional[" ++ s ++ pys "]" := by
    apply pyStrip_eq_self_of
    · intro c hc
      simp only [pys, List.append_assoc, List.head?_append, List.head?] at hc
      cases hc; rfl
    · intro c hc
      rw [List.getLast?_append, show (pys "]").getLast? = some ']' from rfl] at hc
      simp only [Option.or_some, Option.some.injEq] at hc
      subst hc; decide
  have hlen : (pys "Optional[" ++ s ++ pys "]").length = s.length + 10 := by
    simp only [List.length_append, pys]
    simp [List.length]
    omega
  rw [pythonTypeToJsonSchema, hlen, pyTypeToJsonAux, hw]
  have hkey : alGet (pys "Optional[" ++ s ++ pys "]") typeMap = none := by
    simp only [typeMap, alGet, pys]
    simp [List.append_assoc]
  have hop : litPre (pys "Optional[") (pys "Optional[" ++ s ++ pys "]") = true := by
    rw [List.append_assoc]
    exact litPre_self_append _ _
  rw [hkey, hop]
  simp only [if_true]
  have hdrop : ((pys "Optional[" ++ s ++ pys "]").drop 9).dropLast = s := by
    rw [List.append_assoc]
    have h9 : (9 : Nat) = (pys "Optional[").length := rfl
    rw [h9, List.drop_left]
    have : pys "]" = [']'] := rfl
    rw [this, List.dropLast_concat]
  rw [hdrop]
  exact pyTypeAux_fuel_irrel _ _ s (by omega) (by omega)

/-- Claim C2, counterexample: the skill source `def execute(a, self): ...`
has no *first* self-like parameter, so by the claim both parameters count:
the schema should have 2 properties with required `["a", "self"]`.  The
source skips a parameter named `self` at *any* position
(tool_registry.py lines 68-70), so the derived schema has a single property
and required `["a"]`. -/
theorem c2_mid_self_param_dropped :
    (skillToToolDefinition
        ⟨"demo", "Demo", "d", true, [⟨"a", none⟩, ⟨"self", none⟩], []⟩).properties.length
        = 1
      ∧ ¬ ((skillToToolDefinition
          ⟨"demo", "Demo", "d", true, [⟨"a", none⟩, ⟨"self", none⟩], []⟩).properties.length
          = 2)
      ∧ (skillToToolDefinition
          ⟨"demo", "Demo", "d", true, [⟨"a", none⟩, ⟨"self", none⟩], []⟩).required
          = ["a"] := by decide

/-- Claim C2, amended: for a skill whose `execute` has pairwise-distinct
positional parameter names, with every parameter named `self` excluded (at
any position, not only a leading one), the derived schema has exactly one
property per remaining parameter (N+M for N without and M with defaults),
and the required list is exactly the names of the remaining parameters whose
index is below `len(args) - len(defaults)` — i.e. a parameter is required
iff it has no declared default value. -/
theorem c2_tool_schema_counts :
    ∀ (s : RSkill), (s.args.map PyArg.name).Nodup →
      (skillToToolDefinition s).properties.length
          = (s.args.filter (fun a => a.name != "self")).length
      ∧ (skillToToolDefinition s).required
          = ((parseFunctionSignature s.args s.defaults).filter
              (fun p => !p.hasDefault)).map ParameterInfo.name
      ∧ (skillToToolDefinition s).required
          = ((List.enumFrom 0 s.args).filter
              (fun q => q.2.name != "self"
                && decide (q.1 < s.args.length - s.defaults.length))).map
              (fun q => q.2.name) := by
  intro s hnd
  refine ⟨?_, ?_, ?_⟩
  · show (buildSchemaAux (parseFunctionSignature s.args s.defaults) [] []).1.length = _
    rw [buildSchemaAux_props_length _ [] []
      (params_names_nodup s.args s.defaults hnd) (by intro p _ h; cases h)]
    rw [parseFunctionSignature, paramsAux_length]
    simp
  · show (buildSchemaAux (parseFunctionSignature s.args s.defaults) [] []).2 = _
    rw [buildSchemaAux_required]
    simp
  · show (buildSchemaAux (parseFunctionSignature s.args s.defaults) [] []).2 = _
    rw [buildSchemaAux_required]
    rw [parseFunctionSignature, paramsAux_required_names]
    simp

/-! ## Tool-Calling Loop (`src/bot/handlers.py`, lines 431-501)

`handle_with_tool_calling` runs `while iterations < MAX_TOOL_ITERATIONS`,
asking the provider each round; a round with no tool calls ends the loop
with `result.text or "I processed your request."` as the final answer, and
exhausting the rounds sends a fixed maximum-tool-calls message.  The
provider is modelled as a function from the (1-based) round number to a
`GenerationResult`; message-list bookkeeping and tool execution side
effects do not influence the loop control and are not modelled here.  The
fuel argument of the loop body equals `MAX_TOOL_ITERATIONS - iterations`,
so `fuel = 0` is exactly the loop exit `iterations = MAX_TOOL_ITERATIONS`. -/

/-- Model of `GenerationResult` as consumed by the loop: the text and the
number of tool calls (`has_tool_calls` is `len(tool_calls) > 0`). -/
structure GenResultM where
  text : String
  toolCallCount : Nat
deriving DecidableEq, Repr

/-- `MAX_TOOL_ITERATIONS` (handlers.py line 33). -/
def maxToolIterations : Nat := 10

/-- The fixed abort message (handlers.py lines 497-500). -/
def maxToolCallsMessage : String :=
  "I've reached the maximum number of tool calls. Please try a simpler request."

/-- Result of one `handle_with_tool_calling` run. -/
inductive LoopOutcome where
  /-- A final answer was sent after `rounds` provider calls. -/
  | answered (rounds : Nat) (text : String)
  /-- The round limit was exhausted after `rounds` provider calls and the
  fixed message was sent. -/
  | aborted (rounds : Nat) (msg : String)
deriving DecidableEq, Repr

/-- The tool-calling `while` loop; `its` is the current value of
`iterations`, `fuel` the remaining `MAX_TOOL_ITERATIONS - its`. -/
def toolLoopAux (provider : Nat → GenResultM) : Nat → Nat → LoopOutcome
  | 0, its => .aborted its maxToolCallsMessage
  | fuel + 1, its =>
    let r := provider (its + 1)
    if r.toolCallCount = 0 then
      .answered (its + 1) (pyOrS r.text "I processed your request.")
    else toolLoopAux provider fuel (its + 1)

/-- `handle_with_tool_calling`, control skeleton. -/
def toolLoop (provider : Nat → GenResultM) : LoopOutcome :=
  toolLoopAux provider maxToolIterations 0

/-- Number of provider rounds performed. -/
def roundsOf : LoopOutcome → Nat
  | .answered n _ => n
  | .aborted n _ => n

theorem toolLoopAux_rounds_le (provider : Nat → GenResultM) :
    ∀ (fuel its : Nat), roundsOf (toolLoopAux provider fuel its) ≤ its + fuel := by
  intro fuel
  induction fuel with
  | zero => intro its; simp [toolLoopAux, roundsOf]
  | succ f ih =>
    intro its
    rw [toolLoopAux]
    by_cases h : (provider (its + 1)).toolCallCount = 0
    · simp only [h, if_true, roundsOf]
      omega
    · simp only [h, if_false]
      have := ih (its + 1)
      omega

theorem toolLoopAux_all_calls (provider : Nat → GenResultM)
    (h : ∀ i, (provider i).toolCallCount ≠ 0) :
    ∀ (fuel its : Nat), toolLoopAux provider fuel its
      = .aborted (its + fuel) maxToolCallsMessage := by
  intro fuel
  induction fuel with
  | zero => intro its; simp [toolLoopAux]
  | succ f ih =>
    intro its
    rw [toolLoopAux]
    simp only [h (its + 1), if_false]
    rw [ih (its + 1)]
    congr 1
    omega

/-- Claim C3, counterexample: for a provider that returns no tool calls and
an empty text, the loop does terminate in one round, but the final answer is
the fixed placeholder `"I processed your request."`, not the result's (empty)
text — `response = result.text or "I processed your request."` at
handlers.py line 466. -/
theorem c3_empty_text_placeholder :
    toolLoop (fun _ => ⟨"", 0⟩) = .answered 1 "I processed your request."
      ∧ ¬ (toolLoop (fun _ => ⟨"", 0⟩) = .answered 1 "") := by
  refine ⟨rfl, fun h => ?_⟩
  have h2 : ("I processed your request." : String) = "" :=
    LoopOutcome.answered.inj (rfl.trans h) |>.2
  exact absurd h2 (by decide)

/-- Claim C3, amended: the loop performs at most `MAX_TOOL_ITERATIONS = 10`
provider rounds; if the first generation result carries no tool calls it
terminates in exactly one round with the result's text — or, when that text
is empty, the fixed placeholder "I processed your request." — as the final
answer; and if every round carries tool calls it stops after the maximum
and reports the fixed maximum-tool-calls message instead of an answer. -/
theorem c3_tool_loop_bounds :
    (∀ provider : Nat → GenResultM,
        roundsOf (toolLoop provider) ≤ maxToolIterations)
      ∧ (∀ provider : Nat → GenResultM, (provider 1).toolCallCount = 0 →
          toolLoop provider
            = .answered 1 (pyOrS (provider 1).text "I processed your request."))
      ∧ (∀ provider : Nat → GenResultM,
          (∀ i, (provider i).toolCallCount ≠ 0) →
          toolLoop provider = .aborted maxToolIterations maxToolCallsMessage) := by
  refine ⟨?_, ?_, ?_⟩
  · intro provider
    have := toolLoopAux_rounds_le provider maxToolIterations 0
    simpa [toolLoop] using this
  · intro provider h
    rw [toolLoop, maxToolIterations, toolLoopAux]
    simp [h]
  · intro provider h
    rw [toolLoop]
    rw [toolLoopAux_all_calls provider h]
    rfl

/-- Witness for C3: the amended theorem applied to a provider that always
answers `"done"` with no tool calls. -/
theorem c3_tool_loop_bounds_witness :
    toolLoop (fun _ => ⟨"done", 0⟩)
      = .answered 1 (pyOrS (⟨"done", 0⟩ : GenResultM).text
          "I processed your request.") :=
  c3_tool_loop_bounds.2.1 (fun _ => ⟨"done", 0⟩) rfl

/-! ## Scheduler: cron parsing and trigger registration
(`src/scheduler/scheduler.py`)

`parse_cron` (lines 34-54), `cron_to_time` (57-72),
`cron_to_interval_seconds` (75-105) and the trigger decision of
`_register_job` (144-217).  `int()` / `isdigit()` are the ASCII models from
the prelude; `datetime.time(hour, minute)` raising on out-of-range values
(caught inside `cron_to_time`) is the range check in `cronToTime`.  The
catch-up check `_check_missed_job` depends on the wall clock and is outside
the registration decision modelled here. -/

/-- Result of `parse_cron`: minute/hour as integers or `None` for `*`;
day/month/day-of-week kept as raw text or `None` for `*`. -/
structure CronParts where
  minute : Option Int
  hour : Option Int
  dayF : Option Chars
  monthF : Option Chars
  dowF : Option Chars
deriving DecidableEq, Repr

/-- The `*` field token. -/
def starTok : Chars := ['*']

/-- `int(field) if field != "*" else None`, with `ValueError` on bad text. -/
def cronField (t : Chars) : Except PyExc (Option Int) :=
  if t = starTok then .ok none
  else
    match pyIntOpt t with
    | some n => .ok (some n)
    | none => .error ⟨"ValueError", "invalid literal for int()", true⟩

/-- `parse_cron` (scheduler.py lines 34-54). -/
def parseCron (cron : Chars) : Except PyExc CronParts :=
  match splitWs (pyStrip cron) with
  | [mi, h, d, mo, dw] => do
    let mv ← cronField mi
    let hv ← cronField h
    .ok ⟨mv, hv, if d = starTok then none else some d,
         if mo = starTok then none else some mo,
         if dw = starTok then none else some dw⟩
  | _ => .error ⟨"ValueError", "Invalid cron format", true⟩

/-- `cron_to_time` (scheduler.py lines 57-72): daily wall-clock time when
minute and hour are literals; any exception (including the range check of
`datetime.time`) is caught and yields `None`.  Returns `(hour, minute)`. -/
def cronToTime (cron : Chars) : Option (Int × Int) :=
  match parseCron cron with
  | .error _ => none
  | .ok p =>
    match p.minute, p.hour with
    | some m, some h =>
      if 0 ≤ h ∧ h ≤ 23 ∧ 0 ≤ m ∧ m ≤ 59 then some (h, m) else none
    | _, _ => none

/-- `cron_to_interval_seconds` (scheduler.py lines 75-105). -/
def cronToIntervalSeconds (cron : Chars) : Option Int :=
  match splitWs (pyStrip cron) with
  | [minute, hour, dayT, monthT, dowT] =>
    if minute = starTok && hour = starTok && dayT = starTok
        && monthT = starTok && dowT = starTok then
      some 60
    else if litPre (pys "*/") minute && hour = starTok && dayT = starTok then
      match pyIntOpt (minute.drop 2) with
      | some n => some (n * 60)
      | none => none
    else if pyIsDigitStr minute && hour = starTok && dayT = starTok then
      some 3600
    else if pyIsDigitStr minute && litPre (pys "*/") hour && dayT = starTok then
      match pyIntOpt (hour.drop 2) with
      | some n => some (n * 3600)
      | none => none
    else none
  | _ => none

/-- `cron_to_ptb_day` (scheduler.py lines 185-186): Sunday-is-0 cron
numbering to Monday-is-0 numbering.  Lean's `Int` `%` is `Int.emod`, whose
result for a positive modulus is non-negative, matching Python. -/
def cronToPtbDay (d : Int) : Int := (d - 1) % 7

/-- Python `range(s, e)` as a list (empty when `e ≤ s`). -/
def pyRange (s e : Int) : List Int :=
  (List.range (e - s).toNat).map fun k => s + (k : Int)

def expectInt (t : Chars) : Except PyExc Int :=
  match pyIntOpt t with
  | some n => .ok n
  | none => .error ⟨"ValueError", "invalid literal for int()", true⟩

/-- The day-of-week parsing of `_register_job` (scheduler.py lines
180-196): a range `a-b`, a comma list, or a single value; any non-integer
text raises `ValueError`, as does a dash form that does not split into
exactly two parts. -/
def parseDowDays (dw : Chars) : Except PyExc (List Int) :=
  if containsSub dw ['-'] then
    match splitOnC '-' dw with
    | [a, b] => do
      let s ← expectInt a
      let e ← expectInt b
      .ok ((pyRange s (e + 1)).map cronToPtbDay)
    | _ => .error ⟨"ValueError", "values to unpack", true⟩
  else if containsSub dw [','] then do
    let ns ← (splitOnC ',' dw).mapM expectInt
    .ok (ns.map cronToPtbDay)
  else do
    let n ← expectInt dw
    .ok [cronToPtbDay n]

/-- A trigger installed with the host job queue. -/
inductive TriggerM where
  /-- `run_repeating(interval, first=10)`. -/
  | repeating (intervalS : Int) (firstS : Int)
  /-- `run_daily(time, days)`; `days` in Monday-is-0 numbering, `none` for
  every day. -/
  | daily (hour minute : Int) (days : Option (List Int))
deriving DecidableEq, Repr

/-- What `_register_job` does for a given cron expression (given a live job
queue): install a trigger, leave the job unregistered with a warning, or
raise. -/
inductive RegOutcome where
  | installed (t : TriggerM)
  | unregistered
  | raisedErr (e : PyExc)
deriving DecidableEq, Repr

def exceptIsOk {ε α : Type} : Except ε α → Bool
  | .ok _ => true
  | .error _ => false

/-- The daily-time branch of `_register_job` (scheduler.py lines 166-217).
The second `parse_cron` call there is unguarded; its error case is kept for
totality (it cannot fire when `cron_to_time` succeeded, see
`c8_register_raise_characterization`).  The `if parsed["day_of_week"] and
parsed["day_of_week"] != "*"` truthiness test is the empty/star check. -/
def dailyDecision (cron : Chars) : RegOutcome :=
  match cronToTime cron with
  | none => .unregistered
  | some (h, m) =>
    match parseCron cron with
    | .error e => .raisedErr e
    | .ok p =>
      match p.dowF with
      | none => .installed (.daily h m none)
      | some dw =>
        if dw = [] ∨ dw = starTok then .installed (.daily h m none)
        else
          match parseDowDays dw with
          | .ok ds => .installed (.daily h m (some ds))
          | .error e => .raisedErr e

/-- The trigger decision of `_register_job`: interval form first (`if
interval:` — `None` and `0` falsy), then the daily-time form. -/
def registerDecision (cron : Chars) : RegOutcome :=
  match cronToIntervalSeconds cron with
  | some n => if n ≠ 0 then .installed (.repeating n 10) else dailyDecision cron
  | none => dailyDecision cron

def isRaisedOutcome : RegOutcome → Bool
  | .raisedErr _ => true
  | _ => false

/-- The exact condition under which `_register_job` raises: daily-time form
reached with a restricted day-of-week field whose parsing fails. -/
def dowMalformedDaily (cron : Chars) : Bool :=
  match cronToTime cron with
  | none => false
  | some _ =>
    match parseCron cron with
    | .error _ => true
    | .ok p =>
      match p.dowF with
      | none => false
      | some dw =>
        if dw = [] ∨ dw = starTok then false
        else !(exceptIsOk (parseDowDays dw))

def dowMalformed (cron : Chars) : Bool :=
  match cronToIntervalSeconds cron with
  | some n => if n ≠ 0 then false else dowMalformedDaily cron
  | none => dowMalformedDaily cron

theorem daily_raise_char (cron : Chars) :
    isRaisedOutcome (dailyDecision cron) = dowMalformedDaily cron := by
  rw [dailyDecision, dowMalformedDaily]
  cases ht : cronToTime cron with
  | none => rfl
  | some hm =>
    obtain ⟨h, m⟩ := hm
    cases hp : parseCron cron with
    | error e => rfl
    | ok p =>
      cases hdw : p.dowF with
      | none => simp [hdw, isRaisedOutcome]
      | some dw =>
        simp only [hdw]
        by_cases hstar : dw = [] ∨ dw = starTok
        · simp [hstar, isRaisedOutcome]
        · cases hdd : parseDowDays dw <;>
            simp [hstar, hdd, isRaisedOutcome, exceptIsOk]

/-- Claim C8, counterexample: the claim says registration never raises, in
particular for a malformed or non-numeric day-of-week field; but for
`"0 9 * * mon-fri"` the daily-time form is entered and
`int("mon")` raises an uncaught `ValueError` out of `_register_job`
(scheduler.py line 190). -/
theorem c8_register_raises_on_bad_dow :
    isRaisedOutcome (registerDecision (pys "0 9 * * mon-fri")) = true
      ∧ isRaisedOutcome (registerDecision (pys "0 9 * * 1-2-3")) = true := by
  decide

/-- Claim C8, amended: for every cron expression, registration installs a
trigger (interval or daily form) or leaves the job unregistered with a
logged warning, and never raises — *except* exactly when the expression
reaches the daily-time form with a restricted day-of-week field whose
parsing fails (non-integer value, non-integer range or list entries, or a
dash form not splitting into exactly two parts), in which case a
`ValueError` propagates to the caller. -/
theorem c8_register_raise_characterization :
    ∀ cron : Chars,
      isRaisedOutcome (registerDecision cron) = dowMalformed cron := by
  intro cron
  rw [registerDecision, dowMalformed]
  cases hint : cronToIntervalSeconds cron with
  | some n =>
    by_cases hn : n ≠ 0
    · simp [hn, isRaisedOutcome]
    · simp only [hn, if_false]
      exact daily_raise_char cron
  | none => exact daily_raise_char cron

/-- Claim C4: `"0 9 * * *"` registers as a daily trigger at 09:00 local
with no day restriction; `"*/15 * * * *"` as a repeating trigger with a
900-second period (first fire 10s after registration); `"0 9 * * 1-5"` as a
daily trigger at 09:00 restricted to Monday-Friday, each cron day d
translated to the host's Monday-is-0 numbering as (d - 1) mod 7. -/
theorem c4_cron_scenarios :
    registerDecision (pys "0 9 * * *") = .installed (.daily 9 0 none)
      ∧ registerDecision (pys "*/15 * * * *") = .installed (.repeating 900 10)
      ∧ registerDecision (pys "0 9 * * 1-5")
          = .installed (.daily 9 0 (some [0, 1, 2, 3, 4]))
      ∧ (∀ d : Int, cronToPtbDay d = (d - 1) % 7) :=
  ⟨by decide, by decide, by decide, fun d => rfl⟩

/-! ## Scheduler: job store, pending jobs, confirm/cancel
(`src/scheduler/scheduler.py` lines 253-341, `src/scheduler/models.py`)

The pending map, job store (`JobStore._jobs` dict plus a full rewrite to
disk on every mutation — the disk write is external), registered triggers
(keyed by job-queue name), and the confirm/cancel workflow.
`ScheduledJob.created_at` is a `datetime.now()` timestamp and is omitted
from the model; the `_check_missed_job` catch-up `run_once` is wall-clock
dependent and likewise outside the model. -/

/-- Remove the (first) entry under a key (Python `dict.pop(k, None)`). -/
def alRemoveFirst {κ β : Type} [DecidableEq κ] (k : κ) :
    List (κ × β) → List (κ × β)
  | [] => []
  | (k', v) :: rest => if k' = k then rest else (k', v) :: alRemoveFirst k rest

/-- Model of `ScheduledJob` (models.py lines 11-39). -/
structure SJobM where
  jid : String
  task : String
  cron : Chars
  description : String
  enabled : Bool
  lastRun : Option String
deriving DecidableEq, Repr

/-- Model of `PendingJob` (models.py lines 42-69). -/
structure PJobM where
  jid : String
  task : String
  cron : Chars
  description : String
  messageId : Int
deriving DecidableEq, Repr

/-- `PendingJob.to_scheduled_job` (models.py lines 62-69): same id, task,
cron, description; enabled defaults to true, last_run to None. -/
def PJobM.toScheduledJob (p : PJobM) : SJobM :=
  ⟨p.jid, p.task, p.cron, p.description, true, none⟩

@[simp] theorem PJobM.toScheduledJob_jid (p : PJobM) :
    p.toScheduledJob.jid = p.jid := rfl

@[simp] theorem PJobM.toScheduledJob_cron (p : PJobM) :
    p.toScheduledJob.cron = p.cron := rfl

/-- The scheduler-visible state: `_pending_jobs`, the job store's dict, and
the job queue's triggers by name (`hasJobQueue` false models
`self.app`/`job_queue` being `None`). -/
structure SchedState where
  pending : List (String × PJobM)
  jobs : List (String × SJobM)
  hasJobQueue : Bool
  triggers : List (String × TriggerM)
deriving DecidableEq, Repr

/-- `Scheduler._unregister_job` (lines 253-260): remove every trigger
registered under the id. -/
def unregisterJob (jobId : String) (st : SchedState) : SchedState :=
  if st.hasJobQueue then
    { st with triggers := st.triggers.filter fun e => e.1 != jobId }
  else st

/-- `Scheduler._register_job` (lines 144-217) as a state transition: warn
and do nothing without a job queue; otherwise unregister the id first, then
act on the trigger decision; a raised `ValueError` is reported in the first
component (the unregistration has already happened). -/
def registerJobM (job : SJobM) (st : SchedState) : Option PyExc × SchedState :=
  if st.hasJobQueue then
    let st1 := unregisterJob job.jid st
    match registerDecision job.cron with
    | .installed t => (none, { st1 with triggers := st1.triggers ++ [(job.jid, t)] })
    | .unregistered => (none, st1)
    | .raisedErr e => (some e, st1)
  else (none, st)

/-- `Scheduler.add_pending` (lines 285-287). -/
def addPending (p : PJobM) (st : SchedState) : SchedState :=
  { st with pending := alInsert p.jid p st.pending }

/-- `Scheduler.remove_pending` (lines 293-295): `pop(job_id, None)`. -/
def removePending (jobId : String) (st : SchedState) :
    Option PJobM × SchedState :=
  (alGet jobId st.pending, { st with pending := alRemoveFirst jobId st.pending })

/-- `Scheduler.confirm_job` (lines 297-308): pop the pending entry; if
present, convert, store (`JobStore.add`), and register.  The first
component models an exception escaping (from `_register_job`). -/
def confirmJob (st : SchedState) (jobId : String) :
    Option PyExc × Option SJobM × SchedState :=
  match removePending jobId st with
  | (none, st1) => (none, none, st1)
  | (some p, st1) =>
    let job := p.toScheduledJob
    let st2 := { st1 with jobs := alInsert job.jid job st1.jobs }
    match registerJobM job st2 with
    | (some e, st3) => (some e, none, st3)
    | (none, st3) => (none, some job, st3)

/-- `Scheduler.cancel_pending` (lines 310-312). -/
def cancelPending (st : SchedState) (jobId : String) : Bool × SchedState :=
  match removePending jobId st with
  | (some _, st1) => (true, st1)
  | (none, st1) => (false, st1)

/-- `Scheduler.list_jobs` (lines 316-318): all stored jobs. -/
def listJobs (st : SchedState) : List SJobM := st.jobs.map Prod.snd

theorem alGet_eq_none_of_not_mem {κ β : Type} [DecidableEq κ] (k : κ) :
    ∀ (l : List (κ × β)), k ∉ l.map Prod.fst → alGet k l = none := by
  intro l
  induction l with
  | nil => intro _; rfl
  | cons e rest ih =>
    intro h
    simp only [List.map_cons, List.mem_cons] at h
    push_neg at h
    rw [alGet, if_neg (fun hh => h.1 hh.symm)]
    exact ih h.2

theorem alGet_alRemoveFirst_nodup {κ β : Type} [DecidableEq κ] (k : κ) :
    ∀ (l : List (κ × β)), (l.map Prod.fst).Nodup →
      alGet k (alRemoveFirst k l) = none := by
  intro l
  induction l with
  | nil => intro _; rfl
  | cons e rest ih =>
    intro hnd
    rw [List.map_cons, List.nodup_cons] at hnd
    rw [alRemoveFirst]
    by_cases he : e.1 = k
    · rw [if_pos he]
      exact alGet_eq_none_of_not_mem k rest (he ▸ hnd.1)
    · rw [if_neg he, alGet, if_neg he]
      exact ih hnd.2

theorem alRemoveFirst_of_alGet_none {κ β : Type} [DecidableEq κ] (k : κ) :
    ∀ (l : List (κ × β)), alGet k l = none → alRemoveFirst k l = l := by
  intro l
  induction l with
  | nil => intro _; rfl
  | cons e rest ih =>
    intro h
    rw [alGet] at h
    by_cases he : e.1 = k
    · rw [if_pos he] at h; cases h
    · rw [if_neg he] at h
      rw [alRemoveFirst, if_neg he, ih h]

theorem mem_values_alInsert {κ β : Type} [DecidableEq κ] (k : κ) (v : β) :
    ∀ (l : List (κ × β)), v ∈ (alInsert k v l).map Prod.snd := by
  intro l
  induction l with
  | nil => simp [alInsert]
  | cons e rest ih =>
    rw [alInsert]
    by_cases he : e.1 = k
    · simp [he]
    · simp only [if_neg he, List.map_cons, List.mem_cons]
      exact Or.inr ih

theorem alGet_append {κ β : Type} [DecidableEq κ] (k : κ) :
    ∀ (l1 l2 : List (κ × β)),
      alGet k (l1 ++ l2)
        = match alGet k l1 with
          | some v => some v
          | none => alGet k l2 := by
  intro l1 l2
  induction l1 with
  | nil => simp [alGet]
  | cons e rest ih =>
    rw [List.cons_append, alGet, alGet]
    by_cases he : e.1 = k
    · simp [he]
    · simp only [if_neg he]
      exact ih

theorem alGet_filter_ne_self {β : Type} (k : String) :
    ∀ (l : List (String × β)),
      alGet k (l.filter fun e => e.1 != k) = none := by
  intro l
  induction l with
  | nil => rfl
  | cons e rest ih =>
    rw [List.filter_cons]
    by_cases he : e.1 = k
    · simp only [he, bne_self_eq_false, Bool.false_eq_true, if_false]
      exact ih
    · have : (e.1 != k) = true := bne_iff_ne.mpr he
      simp only [this, if_true]
      rw [alGet, if_neg he]
      exact ih

/-- Claim C5, counterexample: a pending job whose cron text parses to
neither cron form.  `confirm` removes it from pending, stores it, and
returns it — it appears in `list_jobs` — but its trigger is *not*
registered (`_register_job` logs a warning and installs nothing), while the
claim asserts every confirmed job has its trigger registered. -/
theorem c5_confirm_bad_cron_no_trigger :
    confirmJob
        ⟨[("abc123", ⟨"abc123", "do it", pys "bad", "d", 0⟩)], [], true, []⟩
        "abc123"
      = (none, some ⟨"abc123", "do it", pys "bad", "d", true, none⟩,
         ⟨[], [("abc123", ⟨"abc123", "do it", pys "bad", "d", true, none⟩)],
          true, []⟩)
      ∧ (⟨[], [("abc123", ⟨"abc123", "do it", pys "bad", "d", true, none⟩)],
          true, []⟩ : SchedState).triggers = [] := by decide

/-- Claim C5, amended: for every id held in pending storage (pending keys
distinct), `confirm` removes it from pending and returns a ScheduledJob
with the same task, cron, and description that afterwards appears in
`list_jobs()`; its trigger is registered provided the job queue is live and
the cron expression parses to a trigger form (otherwise the job is stored
but no trigger is installed, and a malformed day-of-week raises).
`confirm` on an id not in pending storage returns absent and changes
nothing; `cancel` removes the pending entry without touching the job store
or triggers (the job never appears in `list_jobs()`) and returns true iff
the id was pending. -/
theorem c5_confirm_cancel :
    (∀ (st : SchedState) (jid : String) (p : PJobM) (t : TriggerM),
        (st.pending.map Prod.fst).Nodup →
        alGet jid st.pending = some p →
        registerDecision p.cron = .installed t →
        (confirmJob st jid).1 = none
          ∧ (confirmJob st jid).2.1 = some p.toScheduledJob
          ∧ p.toScheduledJob.task = p.task
          ∧ p.toScheduledJob.cron = p.cron
          ∧ p.toScheduledJob.description = p.description
          ∧ alGet jid (confirmJob st jid).2.2.pending = none
          ∧ p.toScheduledJob ∈ listJobs (confirmJob st jid).2.2
          ∧ (st.hasJobQueue = true →
              alGet p.jid (confirmJob st jid).2.2.triggers = some t))
      ∧ (∀ (st : SchedState) (jid : String),
          alGet jid st.pending = none →
          confirmJob st jid = (none, none, st))
      ∧ (∀ (st : SchedState) (jid : String),
          (cancelPending st jid).1 = (alGet jid st.pending).isSome
            ∧ (cancelPending st jid).2.jobs = st.jobs
            ∧ (cancelPending st jid).2.triggers = st.triggers
            ∧ ((st.pending.map Prod.fst).Nodup →
                alGet jid (cancelPending st jid).2.pending = none)) := by
  refine ⟨?_, ?_, ?_⟩
  · intro st jid p t hnd hget hreg
    have h1 : (confirmJob st jid).1 = none := by
      cases hq : st.hasJobQueue <;>
        simp [confirmJob, removePending, hget, registerJobM, unregisterJob,
          hq, hreg]
    have h2 : (confirmJob st jid).2.1 = some p.toScheduledJob := by
      cases hq : st.hasJobQueue <;>
        simp [confirmJob, removePending, hget, registerJobM, unregisterJob,
          hq, hreg]
    have hpend : (confirmJob st jid).2.2.pending = alRemoveFirst jid st.pending := by
      cases hq : st.hasJobQueue <;>
        simp [confirmJob, removePending, hget, registerJobM, unregisterJob,
          hq, hreg]
    have hjobs : (confirmJob st jid).2.2.jobs
        = alInsert p.jid p.toScheduledJob st.jobs := by
      cases hq : st.hasJobQueue <;>
        simp [confirmJob, removePending, hget, registerJobM, unregisterJob,
          hq, hreg]
    have htrig : st.hasJobQueue = true → (confirmJob st jid).2.2.triggers
        = (st.triggers.filter fun e => e.1 != p.jid) ++ [(p.jid, t)] := by
      intro hq
      simp [confirmJob, removePending, hget, registerJobM, unregisterJob,
        hq, hreg]
    refine ⟨h1, h2, rfl, rfl, rfl, ?_, ?_, ?_⟩
    · rw [hpend]
      exact alGet_alRemoveFirst_nodup jid st.pending hnd
    · simp only [listJobs, hjobs]
      exact mem_values_alInsert _ _ _
    · intro hq
      rw [htrig hq, alGet_append, alGet_filter_ne_self]
      simp [alGet]
  · intro st jid hget
    have hrm := alRemoveFirst_of_alGet_none jid st.pending hget
    simp [confirmJob, removePending, hget, hrm]
  · intro st jid
    cases hget : alGet jid st.pending with
    | none =>
      have hrm := alRemoveFirst_of_alGet_none jid st.pending hget
      have hc : cancelPending st jid = (false, st) := by
        simp [cancelPending, removePending, hget, hrm]
      rw [hc, hget]
      exact ⟨rfl, rfl, rfl, fun _ => rfl⟩
    | some p =>
      have hc : cancelPending st jid
          = (true, { st with pending := alRemoveFirst jid st.pending }) := by
        simp [cancelPending, removePending, hget]
      rw [hc]
      exact ⟨rfl, rfl, rfl, fun hnd =>
        alGet_alRemoveFirst_nodup jid st.pending hnd⟩

/-- Witness for C5: the amended theorem applied to a concrete state with a
well-formed daily cron. -/
theorem c5_confirm_cancel_witness :
    (confirmJob
        ⟨[("abc123", ⟨"abc123", "report", pys "0 9 * * *", "daily report", 0⟩)],
         [], true, []⟩ "abc123").2.1
      = some (PJobM.toScheduledJob
          ⟨"abc123", "report", pys "0 9 * * *", "daily report", 0⟩) :=
  (c5_confirm_cancel.1
    ⟨[("abc123", ⟨"abc123", "report", pys "0 9 * * *", "daily report", 0⟩)],
     [], true, []⟩
    "abc123" ⟨"abc123", "report", pys "0 9 * * *", "daily report", 0⟩
    (.daily 9 0 none) (by decide) (by decide) (by decide)).2.1

/-! ## Tool Registry: cache and enabled-skill filtering
(`src/core/tool_registry.py` lines 175-230, `src/bot/commands.py` line 299)

`get_all_tool_definitions` iterates the skill store's dict, skipping
disabled skills *before* consulting the cache; `get_tool_definition`
consults the cache *first* and only checks `enabled` on a cache miss;
toggling (commands.py) flips `skill.enabled` in place without touching the
registry cache.  The per-skill `try`/`except` in `get_all_tool_definitions`
has nothing to catch in the embedding (the derivation is total). -/

/-- Registry-visible state: the skill store's dict and the tool cache. -/
structure RegistryState where
  skills : List (String × RSkill)
  cache : List (String × ToolDefM)
deriving DecidableEq, Repr

/-- The loop of `get_all_tool_definitions` (lines 181-201), threading the
cache. -/
def getAllAux : List (String × RSkill) → List (String × ToolDefM) →
    List ToolDefM × List (String × ToolDefM)
  | [], cache => ([], cache)
  | (n, s) :: rest, cache =>
    if s.enabled then
      match alGet n cache with
      | some td =>
        let r := getAllAux rest cache
        (td :: r.1, r.2)
      | none =>
        let td := skillToToolDefinition s
        let r := getAllAux rest (alInsert n td cache)
        (td :: r.1, r.2)
    else getAllAux rest cache

/-- `ToolRegistry.get_all_tool_definitions`. -/
def getAllToolDefinitions (st : RegistryState) :
    List ToolDefM × RegistryState :=
  let r := getAllAux st.skills st.cache
  (r.1, { st with cache := r.2 })

/-- `ToolRegistry.get_tool_definition` (lines 203-221): cache first, then
the skill store with the `enabled` check. -/
def getToolDefinition (st : RegistryState) (nm : String) :
    Option ToolDefM × RegistryState :=
  match alGet nm st.cache with
  | some td => (some td, st)
  | none =>
    match alGet nm st.skills with
    | some s =>
      if s.enabled then
        let td := skillToToolDefinition s
        (some td, { st with cache := alInsert nm td st.cache })
      else (none, st)
    | none => (none, st)

/-- `SkillParser.get_skill` — the Skill Store's by-name lookup, independent
of the enabled flag. -/
def getSkillStore (st : RegistryState) (nm : String) : Option RSkill :=
  alGet nm st.skills

/-- The skill toggle (commands.py line 299): flip `enabled` in place; the
registry cache is not touched. -/
def toggleSkill (st : RegistryState) (nm : String) : RegistryState :=
  { st with skills := st.skills.map fun e =>
      if e.1 = nm then (e.1, { e.2 with enabled := !e.2.enabled }) else e }

/-- `ToolRegistry.clear_cache` (lines 223-225). -/
def clearCache (st : RegistryState) : RegistryState := { st with cache := [] }

/-- Claim C7, counterexample: derive (and cache) the tool definition of an
enabled skill, then toggle it off.  `get_tool_definition` still returns the
cached definition for the now-disabled skill (the cache is consulted before
the enabled check, tool_registry.py lines 212-213), contradicting both
"returns absent for a disabled skill" and the 1:1-with-enabled invariant;
the Skill-Store `get` still returns the (disabled) skill. -/
theorem c7_cached_disabled_returned :
    ((getToolDefinition
        (toggleSkill
          (getToolDefinition
            ⟨[("get_weather", ⟨"get_weather", "Get Weather", "w", true,
                [⟨"city", some "str"⟩], []⟩)], []⟩
            "get_weather").2
          "get_weather")
        "get_weather").1).isSome = true
      ∧ (getSkillStore
          (toggleSkill
            (getToolDefinition
              ⟨[("get_weather", ⟨"get_weather", "Get Weather", "w", true,
                  [⟨"city", some "str"⟩], []⟩)], []⟩
              "get_weather").2
            "get_weather")
          "get_weather").map RSkill.enabled = some false := by decide

/-- Claim C7, amended: `get_all_tool_definitions` omits every disabled
skill (including one whose definition is cached): its result is unchanged
by dropping disabled entries, and it returns exactly one definition per
enabled skill.  `get_tool_definition`, however, consults the cache before
the enabled check: a cached definition is returned even if the skill is now
disabled; only on a cache miss does it return absent for a disabled (or
missing) skill.  A disabled skill remains retrievable by name via the Skill
Store's get. -/
theorem c7_registry_enabled_only :
    (∀ (skills : List (String × RSkill)) (cache : List (String × ToolDefM)),
        (getAllAux skills cache).1
          = (getAllAux (skills.filter fun e => e.2.enabled) cache).1)
      ∧ (∀ (skills : List (String × RSkill)) (cache : List (String × ToolDefM)),
          (getAllAux skills cache).1.length
            = (skills.filter fun e => e.2.enabled).length)
      ∧ (∀ (st : RegistryState) (nm : String) (td : ToolDefM),
          alGet nm st.cache = some td → (getToolDefinition st nm).1 = some td)
      ∧ (∀ (st : RegistryState) (nm : String),
          alGet nm st.cache = none →
          (getToolDefinition st nm).1
            = match alGet nm st.skills with
              | some s =>
                if s.enabled then some (skillToToolDefinition s) else none
              | none => none)
      ∧ (∀ (st : RegistryState) (nm : String),
          getSkillStore st nm = alGet nm st.skills) := by
  refine ⟨?_, ?_, ?_, ?_, ?_⟩
  · intro skills
    induction skills with
    | nil => intro cache; rfl
    | cons e rest ih =>
      intro cache
      obtain ⟨n, s⟩ := e
      by_cases he : s.enabled = true
      · rw [List.filter_cons]
        simp only [he, if_true, getAllAux]
        cases hc : alGet n cache with
        | some td => simp only [hc, ih cache]
        | none => simp only [hc, ih (alInsert n (skillToToolDefinition s) cache)]
      · rw [Bool.not_eq_true] at he
        rw [List.filter_cons]
        simp only [he, Bool.false_eq_true, if_false, getAllAux, ih cache]
  · intro skills
    induction skills with
    | nil => intro cache; rfl
    | cons e rest ih =>
      intro cache
      obtain ⟨n, s⟩ := e
      by_cases he : s.enabled = true
      · rw [List.filter_cons]
        simp only [he, if_true, getAllAux]
        cases hc : alGet n cache with
        | some td => simp [hc, ih cache]
        | none => simp [hc, ih (alInsert n (skillToToolDefinition s) cache)]
      · rw [Bool.not_eq_true] at he
        rw [List.filter_cons]
        simp only [he, Bool.false_eq_true, if_false, getAllAux, ih cache]
  · intro st nm td h
    rw [getToolDefinition, h]
  · intro st nm h
    rw [getToolDefinition, h]
    cases hs : alGet nm st.skills with
    | some s =>
      by_cases he : s.enabled = true
      · simp [he]
      · rw [Bool.not_eq_true] at he
        simp [he]
    | none => simp
  · intro st nm
    rfl

/-- Witness for C7: the cache-first branch of the amended theorem at a
concrete state whose cache holds an entry for "ping". -/
theorem c7_registry_enabled_only_witness :
    (getToolDefinition
        ⟨[], [("ping", ⟨"ping", "Ping", [], []⟩)]⟩ "ping").1
      = some ⟨"ping", "Ping", [], []⟩ :=
  c7_registry_enabled_only.2.2.1
    ⟨[], [("ping", ⟨"ping", "Ping", [], []⟩)]⟩ "ping"
    ⟨"ping", "Ping", [], []⟩ rfl

/-! ## Skill Executor: `validate_code` (`src/skills/executor.py` lines
227-242)

The syntax check is CPython `compile()`, an external interpreter facility
supplied here as a boolean outcome (with the exception text for the failing
case); the entry-function check in the source is the plain substring test
`"def execute(" in code`. -/

/-- `SkillExecutor.validate_code`. -/
def validateCode (compiles : Bool) (syntaxMsg : String) (code : Chars) :
    Bool × Option String :=
  if compiles then
    if containsSub code (pys "def execute(") then (true, none)
    else (false, some "Code must contain a 'def execute(' function")
  else (false, some ("Syntax error: " ++ syntaxMsg))

/-- Spec-side notion for the refinement comparison, following the spec's
words ("confirms presence of the required entry-function definition"): some
line of the source, after its indentation, begins the definition of a
function named `execute`. -/
def specDefinesEntryFunction (code : Chars) : Bool :=
  (splitOnC '\n' code).any fun ln =>
    litPre (pys "def execute(") (ln.dropWhile pyWsChar)
      || litPre (pys "def execute ") (ln.dropWhile pyWsChar)

/-- Claim C10, counterexample: the source `# def execute(stub)\nx = 1` is
syntactically valid Python (a comment and an assignment) and defines no
entry function, yet `validate_code` reports ok, because its check is the
substring test `"def execute(" in code` which the comment satisfies. -/
theorem c10_validate_substring_check :
    (validateCode true "" (pys "# def execute(stub)\nx = 1")).1 = true
      ∧ specDefinesEntryFunction (pys "# def execute(stub)\nx = 1") = false := by
  decide

/-- Claim C10, amended: `validate_code` returns ok exactly when the source
compiles *and contains the literal substring* `"def execute("` — not when
it contains an actual definition of the entry function (a comment or string
holding that text passes; a definition written `def execute (x):` fails);
whenever it returns not-ok it also returns an error description. -/
theorem c10_validate_characterization :
    ∀ (compiles : Bool) (msg : String) (code : Chars),
      (validateCode compiles msg code).1
          = (compiles && containsSub code (pys "def execute("))
        ∧ ((validateCode compiles msg code).1 = false →
            ((validateCode compiles msg code).2).isSome = true) := by
  intro b msg code
  cases b with
  | false => exact ⟨rfl, fun _ => rfl⟩
  | true =>
    by_cases h : containsSub code (pys "def execute(") = true
    · refine ⟨?_, ?_⟩
      · simp [validateCode, h]
      · intro hfalse
        simp [validateCode, h] at hfalse
    · rw [Bool.not_eq_true] at h
      refine ⟨?_, fun _ => ?_⟩ <;> simp [validateCode, h]

/-- Witness for C10 at a concrete genuine skill source. -/
theorem c10_validate_characterization_witness :
    (validateCode true "" (pys "def execute(city):\n    return city")).1
        = (true && containsSub (pys "def execute(city):\n    return city")
            (pys "def execute("))
      ∧ ((validateCode true "" (pys "def execute(city):\n    return city")).1
            = false →
          ((validateCode true ""
              (pys "def execute(city):\n    return city")).2).isSome = true) :=
  c10_validate_characterization true "" (pys "def execute(city):\n    return city")

/-! ## Skill Store: document parsing and saving (`src/skills/parser.py`)

`SkillParser.parse_file` extracts the description and dependencies sections
with the regexes `#\s*Description\s*\n(.*?)(?=\n#|\Z)` /
`#\s*Dependencies\s*\n(.*?)(?=\n#|\Z)` (DOTALL, IGNORECASE) and the code
with ```` ```python\s*\n(.*?)``` ```` (DOTALL); `save_skill` writes the
canonical document back.  The regex semantics are embedded directly:
`re.search` takes the leftmost matching start; at a match, the greedy
`\s*` before the literal `\n` makes the capture begin after the *last*
newline of the whitespace run following the label (backtracking), and the
lazy capture with lookahead `(?=\n#|\Z)` ends at the first `"\n#"` or at
the end; for the code pattern the closing ```` ``` ```` is mandatory, and
if the first fence opener has no closer no later one can exist either
(every later `"```python"` would itself contain a closer after the first
opener's capture start).  The frontmatter metadata block is split off and
the content stripped by the external `python-frontmatter` library; the
model works at content level. -/

/-- The part of a whitespace run after its last newline. -/
def afterLastNewline (w : Chars) : Chars :=
  ((w.reverse).takeWhile fun c => c ≠ '\n').reverse

/-- Case-insensitive (ASCII) prefix test, for the IGNORECASE labels. -/
def ciPre : Chars → Chars → Bool
  | [], _ => true
  | _ :: _, [] => false
  | p :: ps, c :: cs => (p.toLower = c.toLower) && ciPre ps cs

/-- Match `#\s*LABEL\s*\n` at the head of `l`; on success return the text
from the capture start (just after the last newline of the whitespace run
following the label) to the end. -/
def matchHeaderAt (label l : Chars) : Option Chars :=
  match l with
  | [] => none
  | c :: rest =>
    if c = '#' then
      let afterWs := rest.dropWhile pyWsChar
      if ciPre label afterWs then
        let rest2 := afterWs.drop label.length
        let wr := rest2.takeWhile pyWsChar
        if wr.contains '\n' then
          some (afterLastNewline wr ++ rest2.dropWhile pyWsChar)
        else none
      else none
    else none

/-- `re.search` for the header pattern: leftmost matching position. -/
def findHeaderTail (label : Chars) : Chars → Option Chars
  | [] => none
  | c :: rest =>
    match matchHeaderAt label (c :: rest) with
    | some tail => some tail
    | none => findHeaderTail label rest

/-- The lazy capture up to the lookahead `(?=\n#|\Z)`, then `.strip()`. -/
def sectionText (tail : Chars) : Chars :=
  match breakAtSub tail (pys "\n#") with
  | some pr => pyStrip pr.1
  | none => pyStrip tail

/-- The description extraction of `parse_file` (lines 82-85). -/
def extractDescription (content : Chars) : Chars :=
  match findHeaderTail (pys "description") content with
  | some tail => sectionText tail
  | none => []

/-- One line of the dependencies section (lines 93-98): strip, require a
`-`/`*` list marker, strip the leading `-* ` characters, keep nonempty. -/
def depLine (line : Chars) : Option Chars :=
  let ln := pyStrip line
  if ln.head? = some '-' || ln.head? = some '*' then
    let dep := pyStrip (ln.dropWhile fun c => c = '-' || c = '*' || c = ' ')
    if dep.isEmpty then none else some dep
  else none

/-- The dependencies extraction of `parse_file` (lines 87-98). -/
def extractDependencies (content : Chars) : List Chars :=
  match findHeaderTail (pys "dependencies") content with
  | some tail => (splitOnC '\n' (sectionText tail)).filterMap depLine
  | none => []

/-- Match ```` ```python\s*\n ```` at the head of `l`; on success return the
text from the capture start to the end. -/
def fenceOpenAt (l : Chars) : Option Chars :=
  if litPre (pys "```python") l then
    let rest2 := l.drop 9
    let wr := rest2.takeWhile pyWsChar
    if wr.contains '\n' then
      some (afterLastNewline wr ++ rest2.dropWhile pyWsChar)
    else none
  else none

/-- Leftmost fence opener. -/
def findFenceTail : Chars → Option Chars
  | [] => none
  | c :: rest =>
    match fenceOpenAt (c :: rest) with
    | some tail => some tail
    | none => findFenceTail rest

/-- The code extraction of `parse_file` (lines 100-104): first fenced
python block, capture up to the first closing ```` ``` ```` (no closer
anywhere means no match at all, see the module comment). -/
def extractCode (content : Chars) : Option Chars :=
  match findFenceTail content with
  | none => none
  | some tail =>
    match breakAtSub tail (pys "```") with
    | some pr => some pr.1
    | none => none

/-- The description / dependencies / code triple of a parsed skill. -/
structure SkillDocM where
  description : Chars
  deps : List Chars
  code : Chars
deriving DecidableEq, Repr

/-- `SkillParser.parse_file`, content level (lines 68-121): a document
whose (stripped) code block is missing or empty is rejected. -/
def parseContent (content : Chars) : Option SkillDocM :=
  let desc := extractDescription content
  let deps := extractDependencies content
  match extractCode content with
  | none => none
  | some raw =>
    let code := pyStrip raw
    if code.isEmpty then none else some ⟨desc, deps, code⟩

/-- `"\n".join`. -/
def joinWith (sep : Chars) : List Chars → Chars
  | [] => []
  | [x] => x
  | x :: xs => x ++ sep ++ joinWith sep xs

/-- `SkillParser.save_skill` (lines 153-185), content level: the canonical
body written after the metadata block (the trailing newline is stripped by
the frontmatter split on re-parse). -/
def saveContent (d : Chars) (deps : List Chars) (c : Chars) : Chars :=
  pys "# Description\n" ++ d ++ pys "\n\n# Dependencies\n"
    ++ joinWith ['\n'] (deps.map fun x => pys "- " ++ x)
    ++ pys "\n\n# Code\n```python\n" ++ c ++ pys "\n```"

/-- Claim C9, counterexample: a valid skill document with no Description
section parses to an empty description; saving and re-parsing yields the
description `"# Dependencies\n- requests"` — the save/parse pair does not
round-trip the description.  (With an empty description the saved document
has `# Description` followed by a blank line, and the description regex's
greedy `\s*\n` skips past the blank line so the capture swallows the
following Dependencies section.) -/
theorem c9_roundtrip_fails_without_description :
    parseContent
        (pys "# Dependencies\n- requests\n\n# Code\n```python\ndef execute():\n    pass\n```")
      = some ⟨[], [pys "requests"], pys "def execute():\n    pass"⟩
    ∧ parseContent (saveContent [] [pys "requests"] (pys "def execute():\n    pass"))
      = some ⟨pys "# Dependencies\n- requests", [pys "requests"],
              pys "def execute():\n    pass"⟩
    ∧ pys "# Dependencies\n- requests" ≠ ([] : Chars) := by decide

theorem head_nonWs_of_strip (l : Chars) (h : pyStrip l = l) (c : Char)
    (hc : l.head? = some c) : pyWsChar c = false := by
  by_contra hcw
  rw [Bool.not_eq_false] at hcw
  cases l with
  | nil => cases hc
  | cons x t =>
    have hx : x = c := by
      rw [List.head?_cons, Option.some.injEq] at hc
      exact hc
    rw [← hx] at hcw
    have h1 : pyStrip (x :: t) = stripEndWs (t.dropWhile pyWsChar) := by
      rw [pyStrip, List.dropWhile_cons, hcw]
      simp
    have h2 : (pyStrip (x :: t)).length ≤ t.length := by
      rw [h1]
      calc (stripEndWs (t.dropWhile pyWsChar)).length
          ≤ (t.dropWhile pyWsChar).length := stripEndWs_length_le _
        _ ≤ t.length := (List.dropWhile_sublist pyWsChar).length_le
    rw [h] at h2
    simp at h2

theorem stripEndWs_isPrefix (l : Chars) : stripEndWs l <+: l := by
  rw [stripEndWs]
  have h1 : l.reverse.dropWhile pyWsChar <:+ l.reverse :=
    List.dropWhile_suffix pyWsChar
  have h2 := List.reverse_prefix.mpr h1
  simpa using h2

theorem head?_of_isPrefix {l1 l2 : Chars} (h : l1 <+: l2) (hne : l1 ≠ []) :
    l1.head? = l2.head? := by
  obtain ⟨t, ht⟩ := h
  subst ht
  cases l1 with
  | nil => cases hne rfl
  | cons c r => rfl

theorem getLast?_of_isSuffix {l1 l2 : Chars} (h : l1 <:+ l2) (hne : l1 ≠ []) :
    l1.getLast? = l2.getLast? := by
  obtain ⟨p, hp⟩ := h
  subst hp
  rw [List.getLast?_append]
  cases hl : l1.getLast? with
  | none =>
    rw [List.getLast?_eq_none_iff] at hl
    cases hne hl
  | some c => rfl

theorem last_nonWs_of_strip (l : Chars) (h : pyStrip l = l) (hne : l ≠ [])
    (c : Char) (hc : l.getLast? = some c) : pyWsChar c = false := by
  by_contra hcw
  rw [Bool.not_eq_false] at hcw
  have hy : l.dropWhile pyWsChar ≠ [] := by
    intro hnil
    rw [pyStrip, hnil] at h
    exact hne h.symm
  have hylast : (l.dropWhile pyWsChar).getLast? = some c := by
    rw [getLast?_of_isSuffix (List.dropWhile_suffix pyWsChar) hy]
    exact hc
  have hrev : (l.dropWhile pyWsChar).reverse.head? = some c := by
    rw [List.head?_reverse]
    exact hylast
  have hlen : (pyStrip l).length < (l.dropWhile pyWsChar).length := by
    rw [pyStrip, stripEndWs, List.length_reverse]
    cases hr : (l.dropWhile pyWsChar).reverse with
    | nil =>
      rw [hr] at hrev
      cases hrev
    | cons x t =>
      rw [hr] at hrev
      rw [List.head?_cons, Option.some.injEq] at hrev
      subst hrev
      rw [List.dropWhile_cons, hcw]
      simp only [if_true]
      have h1 : (t.dropWhile pyWsChar).length ≤ t.length :=
        (List.dropWhile_sublist pyWsChar).length_le
      have h2 : (l.dropWhile pyWsChar).length = t.length + 1 := by
        have := congrArg List.length hr
        simpa [Nat.add_comm] using this
      omega
  have hlen2 : (l.dropWhile pyWsChar).length ≤ l.length :=
    (List.dropWhile_sublist pyWsChar).length_le
  rw [h] at hlen
  omega

theorem takeWhile_ws_eq_nil (l z : Chars) (hne : l ≠ [])
    (hh : ∀ c, l.head? = some c → pyWsChar c = false) :
    (l ++ z).takeWhile pyWsChar = [] := by
  cases l with
  | nil => cases hne rfl
  | cons x t =>
    rw [List.cons_append, List.takeWhile_cons, hh x rfl]
    simp

theorem dropWhile_ws_eq_self (l z : Chars) (hne : l ≠ [])
    (hh : ∀ c, l.head? = some c → pyWsChar c = false) :
    (l ++ z).dropWhile pyWsChar = l ++ z := by
  cases l with
  | nil => cases hne rfl
  | cons x t =>
    rw [List.cons_append, List.dropWhile_cons, hh x rfl]
    simp

theorem pyStrip_append_nl (x : Chars) (h : pyStrip x = x) (hne : x ≠ []) :
    pyStrip (x ++ ['\n']) = x := by
  have hh := head_nonWs_of_strip x h
  have hl := last_nonWs_of_strip x h hne
  rw [pyStrip, dropWhile_ws_eq_self x ['\n'] hne hh, stripEndWs,
    List.reverse_append]
  simp only [List.reverse_cons, List.reverse_nil, List.nil_append,
    List.singleton_append]
  rw [List.dropWhile_cons]
  simp only [show pyWsChar '\n' = true from rfl, if_true]
  have hxr : x.reverse.dropWhile pyWsChar = x.reverse := by
    cases hr : x.reverse with
    | nil => rfl
    | cons y t =>
      have hy : x.getLast? = some y := by rw [← List.head?_reverse, hr]; rfl
      rw [List.dropWhile_cons, hl y hy]
      simp
  rw [hxr, List.reverse_reverse]

theorem containsSub_nlHash_of_no_hash (l : Chars) (h : ∀ c ∈ l, c ≠ '#') :
    containsSub l (pys "\n#") = false := by
  induction l with
  | nil => rfl
  | cons x t ih =>
    rw [containsSub_cons]
    have h1 : litPre (pys "\n#") (x :: t) = false := by
      show litPre ['\n', '#'] (x :: t) = false
      cases t with
      | nil => simp [litPre]
      | cons y t' =>
        have hy : y ≠ '#' := h y (by simp)
        simp [litPre, Ne.symm hy]
    rw [h1, Bool.false_or]
    exact ih fun c hc => h c (by simp [hc])

theorem containsSub_nlHash_of_no_nl (l : Chars) (h : ∀ c ∈ l, c ≠ '\n') :
    containsSub l (pys "\n#") = false := by
  induction l with
  | nil => rfl
  | cons x t ih =>
    rw [containsSub_cons]
    have hx : x ≠ '\n' := h x (by simp)
    have h1 : litPre (pys "\n#") (x :: t) = false := by
      show litPre ['\n', '#'] (x :: t) = false
      simp [litPre, Ne.symm hx]
    rw [h1, Bool.false_or]
    exact ih fun c hc => h c (by simp [hc])

theorem containsSub_ticks_of_no_tick (l : Chars) (h : ∀ c ∈ l, c ≠ '`') :
    containsSub l (pys "```") = false := by
  induction l with
  | nil => rfl
  | cons x t ih =>
    rw [containsSub_cons]
    have hx : x ≠ '`' := h x (by simp)
    have h1 : litPre (pys "```") (x :: t) = false := by
      show litPre ['`', '`', '`'] (x :: t) = false
      simp [litPre, Ne.symm hx]
    rw [h1, Bool.false_or]
    exact ih fun c hc => h c (by simp [hc])

theorem break_two_append (a b : Char) (u z : Chars)
    (hu : containsSub u [a, b] = false) (hz : z.head? ≠ some b) :
    breakAtSub (u ++ z) [a, b]
      = (breakAtSub z [a, b]).map fun pr => (u ++ pr.1, pr.2) := by
  induction u with
  | nil =>
    simp only [List.nil_append]
    cases hb : breakAtSub z [a, b] <;> simp
  | cons x t ih =>
    rw [containsSub_cons, Bool.or_eq_false_iff] at hu
    have hpre : litPre [a, b] (x :: (t ++ z)) = false := by
      by_cases hx : a = x
      · subst hx
        show (a = a && litPre [b] (t ++ z)) = false
        simp only [decide_eq_true_eq, eq_self_iff_true, decide_True, Bool.true_and]
        cases t with
        | nil =>
          cases z with
          | nil => rfl
          | cons zc z' =>
            have : b ≠ zc := by
              intro hbz
              exact hz (by rw [hbz]; rfl)
            simp [litPre, this]
        | cons y t' =>
          have := hu.1
          show litPre [b] (y :: (t' ++ z)) = false
          have h2 : litPre [b] (y :: t') = false := by
            have h3 : litPre [a, b] (a :: (y :: t')) = false := this
            simpa [litPre] using h3
          have h4 : b ≠ y := by
            intro hby
            rw [hby] at h2
            simp [litPre] at h2
          simp [litPre, h4]
      · simp [litPre, hx]
    rw [List.cons_append, breakAtSub, hpre]
    simp only [Bool.false_eq_true, if_false]
    rw [ih hu.2]
    cases hb : breakAtSub z [a, b] with
    | none => rfl
    | some pr => simp

theorem break_three_append (a b c : Char) (u z : Chars)
    (hu : containsSub u [a, b, c] = false)
    (hzb : z.head? ≠ some b) (hzc : z.head? ≠ some c) :
    breakAtSub (u ++ z) [a, b, c]
      = (breakAtSub z [a, b, c]).map fun pr => (u ++ pr.1, pr.2) := by
  induction u with
  | nil =>
    simp only [List.nil_append]
    cases hb : breakAtSub z [a, b, c] <;> simp
  | cons x t ih =>
    rw [containsSub_cons, Bool.or_eq_false_iff] at hu
    have hpre : litPre [a, b, c] (x :: (t ++ z)) = false := by
      by_cases hx : a = x
      · subst hx
        show (a = a && litPre [b, c] (t ++ z)) = false
        simp only [decide_eq_true_eq, eq_self_iff_true, decide_True, Bool.true_and]
        cases t with
        | nil =>
          cases z with
          | nil => rfl
          | cons zc z' =>
            have : b ≠ zc := by
              intro hbz
              exact hzb (by rw [hbz]; rfl)
            simp [litPre, this]
        | cons y t' =>
          by_cases hby : b = y
          · subst hby
            show (b = b && litPre [c] (t' ++ z)) = false
            simp only [decide_eq_true_eq, eq_self_iff_true, decide_True,
              Bool.true_and]
            cases t' with
            | nil =>
              cases z with
              | nil => rfl
              | cons zc z' =>
                have : c ≠ zc := by
                  intro hcz
                  exact hzc (by rw [hcz]; rfl)
                simp [litPre, this]
            | cons w t'' =>
              have h3 : litPre [a, b, c] (a :: b :: w :: t'') = false := hu.1
              have h4 : c ≠ w := by
                intro hcw
                rw [hcw] at h3
                simp [litPre] at h3
              simp [litPre, h4]
          · simp [litPre, hby]
      · simp [litPre, hx]
    rw [List.cons_append, breakAtSub, hpre]
    simp only [Bool.false_eq_true, if_false]
    rw [ih hu.2]
    cases hb : breakAtSub z [a, b, c] with
    | none => rfl
    | some pr => simp

theorem matchHeaderAt_ne_hash (label : Chars) (x : Char) (t : Chars)
    (hx : x ≠ '#') : matchHeaderAt label (x :: t) = none := by
  rw [matchHeaderAt]
  simp [hx]

theorem findHeaderTail_append_of_no_hash (label : Chars) :
    ∀ (u z : Chars), (∀ c ∈ u, c ≠ '#') →
      findHeaderTail label (u ++ z) = findHeaderTail label z := by
  intro u
  induction u with
  | nil => intro z _; rfl
  | cons x t ih =>
    intro z h
    rw [List.cons_append, findHeaderTail,
      matchHeaderAt_ne_hash label x _ (h x (by simp))]
    exact ih z fun c hc => h c (by simp [hc])

theorem fenceOpenAt_ne_tick (x : Char) (t : Chars) (hx : x ≠ '`') :
    fenceOpenAt (x :: t) = none := by
  rw [fenceOpenAt]
  have h1 : litPre (pys "```python") (x :: t) = false := by
    show litPre ('`' :: pys "``python") (x :: t) = false
    simp [litPre, Ne.symm hx]
  rw [h1]
  simp

theorem findFenceTail_append_of_no_tick :
    ∀ (u z : Chars), (∀ c ∈ u, c ≠ '`') →
      findFenceTail (u ++ z) = findFenceTail z := by
  intro u
  induction u with
  | nil => intro z _; rfl
  | cons x t ih =>
    intro z h
    rw [List.cons_append, findFenceTail,
      fenceOpenAt_ne_tick x _ (h x (by simp))]
    exact ih z fun c hc => h c (by simp [hc])

theorem matchHeaderAt_desc (d z : Chars) (hne : d ≠ [])
    (hh : ∀ c, d.head? = some c → pyWsChar c = false) :
    matchHeaderAt (pys "description") (pys "# Description\n" ++ (d ++ z))
      = some (d ++ z) := by
  cases d with
  | nil => cases hne rfl
  | cons c0 t0 =>
    have hc0 : pyWsChar c0 = false := hh c0 rfl
    show matchHeaderAt (pys "description")
        ('#' :: (pys " Description\n" ++ (c0 :: (t0 ++ z))))
      = some (c0 :: (t0 ++ z))
    rw [matchHeaderAt]
    have e2 : (pys " Description\n" ++ (c0 :: (t0 ++ z))).dropWhile pyWsChar
        = pys "Description\n" ++ (c0 :: (t0 ++ z)) := rfl
    have e3 : ciPre (pys "description")
        (pys "Description\n" ++ (c0 :: (t0 ++ z))) = true := rfl
    have e4 : (pys "Description\n" ++ (c0 :: (t0 ++ z))).drop
        (pys "description").length = '\n' :: (c0 :: (t0 ++ z)) := rfl
    simp only [e2, e3, e4, if_true, if_pos rfl]
    have e5 : ('\n' :: (c0 :: (t0 ++ z))).takeWhile pyWsChar = ['\n'] := by
      rw [List.takeWhile_cons]
      simp only [show pyWsChar '\n' = true from rfl, if_true]
      rw [List.takeWhile_cons, hc0]
      simp
    have e6 : ('\n' :: (c0 :: (t0 ++ z))).dropWhile pyWsChar
        = c0 :: (t0 ++ z) := by
      rw [List.dropWhile_cons]
      simp only [show pyWsChar '\n' = true from rfl, if_true]
      rw [List.dropWhile_cons, hc0]
      simp
    rw [e5, e6]
    simp [afterLastNewline]

theorem extractDescription_save (d z' : Chars) (h : pyStrip d = d) (hne : d ≠ [])
    (hhash : ∀ c ∈ d, c ≠ '#') :
    extractDescription
        (pys "# Description\n" ++ (d ++ ('\n' :: '\n' :: '#' :: z')))
      = d := by
  have hmatch : matchHeaderAt (pys "description")
      ('#' :: (pys " Description\n" ++ (d ++ ('\n' :: '\n' :: '#' :: z'))))
      = some (d ++ ('\n' :: '\n' :: '#' :: z')) :=
    matchHeaderAt_desc d ('\n' :: '\n' :: '#' :: z') hne (head_nonWs_of_strip d h)
  have hfind : findHeaderTail (pys "description")
      (pys "# Description\n" ++ (d ++ ('\n' :: '\n' :: '#' :: z')))
      = some (d ++ ('\n' :: '\n' :: '#' :: z')) := by
    show findHeaderTail (pys "description")
        ('#' :: (pys " Description\n" ++ (d ++ ('\n' :: '\n' :: '#' :: z'))))
      = some (d ++ ('\n' :: '\n' :: '#' :: z'))
    rw [findHeaderTail, hmatch]
  rw [extractDescription, hfind]
  have hbreak : breakAtSub (d ++ ('\n' :: '\n' :: '#' :: z')) (pys "\n#")
      = some (d ++ ['\n'], '\n' :: '#' :: z') := by
    have h1 := break_two_append '\n' '#' d ('\n' :: '\n' :: '#' :: z')
      (containsSub_nlHash_of_no_hash d hhash) (by simp)
    rw [show breakAtSub ('\n' :: '\n' :: '#' :: z') ['\n', '#']
        = some (['\n'], '\n' :: '#' :: z') from rfl] at h1
    simpa using h1
  simp only [sectionText, hbreak]
  exact pyStrip_append_nl d h hne

theorem joinWith_cons_cons (s x y : Chars) (t : List Chars) :
    joinWith s (x :: y :: t) = x ++ s ++ joinWith s (y :: t) := rfl

theorem splitOnC_ne_nil (sep : Char) : ∀ (l : Chars), splitOnC sep l ≠ [] := by
  intro l
  cases l with
  | nil => simp [splitOnC]
  | cons c t =>
    rw [splitOnC]
    by_cases hc : c = sep
    · simp [hc]
    · simp only [hc, if_false]
      cases h : splitOnC sep t with
      | nil => simp
      | cons u us => simp

theorem splitOnC_append_sep (sep : Char) :
    ∀ (a b : Chars), splitOnC sep (a ++ sep :: b)
      = splitOnC sep a ++ splitOnC sep b := by
  intro a
  induction a with
  | nil =>
    intro b
    simp [splitOnC]
  | cons x a' ih =>
    intro b
    by_cases hx : x = sep
    · subst hx
      rw [List.cons_append, splitOnC, if_pos rfl, ih b, splitOnC, if_pos rfl]
      rfl
    · rw [List.cons_append, splitOnC, if_neg hx, ih b]
      rw [splitOnC, if_neg hx]
      cases h : splitOnC sep a' with
      | nil => cases splitOnC_ne_nil sep a' h
      | cons u us => simp

theorem splitOnC_no_sep (sep : Char) :
    ∀ (l : Chars), (∀ c ∈ l, c ≠ sep) → splitOnC sep l = [l] := by
  intro l
  induction l with
  | nil => intro _; rfl
  | cons x t ih =>
    intro h
    rw [splitOnC, if_neg (h x (by simp)), ih fun c hc => h c (by simp [hc])]

theorem splitOnC_joinWith (sep : Char) :
    ∀ (lines : List Chars), lines ≠ [] →
      (∀ x ∈ lines, ∀ c ∈ x, c ≠ sep) →
      splitOnC sep (joinWith [sep] lines) = lines := by
  intro lines
  induction lines with
  | nil => intro h _; cases h rfl
  | cons x rest ih =>
    intro _ h
    cases rest with
    | nil =>
      rw [joinWith]
      exact splitOnC_no_sep sep x (h x (by simp))
    | cons y rest' =>
      have hj : joinWith [sep] (x :: y :: rest')
          = x ++ sep :: joinWith [sep] (y :: rest') := by
        rw [joinWith_cons_cons]
        simp
      rw [hj, splitOnC_append_sep, splitOnC_no_sep sep x (h x (by simp)),
        ih (by simp) fun w hw c hc => h w (by simp [hw]) c hc]
      rfl

theorem joinWith_head (s : Chars) (x : Chars) (rest : List Chars)
    (hne : x ≠ []) : (joinWith s (x :: rest)).head? = x.head? := by
  cases rest with
  | nil => rfl
  | cons y t =>
    rw [joinWith_cons_cons]
    rw [List.append_assoc, List.head?_append]
    cases hx : x.head? with
    | none =>
      rw [List.head?_eq_none_iff] at hx
      cases hne hx
    | some c => rfl

theorem joinWith_getLast_mem (s : Chars) :
    ∀ (lines : List Chars), lines ≠ [] → (∀ x ∈ lines, x ≠ []) →
      ∃ x ∈ lines, (joinWith s lines).getLast? = x.getLast? := by
  intro lines
  induction lines with
  | nil => intro h _; cases h rfl
  | cons x rest ih =>
    intro _ h
    cases rest with
    | nil => exact ⟨x, by simp, rfl⟩
    | cons y t =>
      obtain ⟨w, hw, hlast⟩ := ih (by simp) fun v hv => h v (by simp [hv])
      refine ⟨w, by simp [hw], ?_⟩
      rw [joinWith_cons_cons]
      rw [List.append_assoc, List.getLast?_append, List.getLast?_append, hlast]
      have hwne : w ≠ [] := h w (by simp [hw])
      cases hwl : w.getLast? with
      | none =>
        rw [List.getLast?_eq_none_iff] at hwl
        cases hwne hwl
      | some c => rfl

theorem joinWith_all (s : Chars) (P : Char → Prop) :
    ∀ (lines : List Chars), (∀ x ∈ lines, ∀ c ∈ x, P c) →
      (∀ c ∈ s, P c) → ∀ c ∈ joinWith s lines, P c := by
  intro lines
  induction lines with
  | nil => intro _ _ c hc; cases hc
  | cons x rest ih =>
    intro h hs c hc
    cases rest with
    | nil => exact h x (by simp) c hc
    | cons y t =>
      rw [joinWith_cons_cons] at hc
      rw [List.append_assoc, List.mem_append] at hc
      rcases hc with hc | hc
      · exact h x (by simp) c hc
      · rw [List.mem_append] at hc
        rcases hc with hc | hc
        · exact hs c hc
        · exact ih (fun v hv => h v (by simp [hv])) hs c hc

theorem depLine_marker (x : Chars) (hx : pyStrip x = x) (hne : x ≠ [])
    (hd : x.head? ≠ some '-') (hs : x.head? ≠ some '*') :
    depLine (pys "- " ++ x) = some x := by
  have hh := head_nonWs_of_strip x hx
  have hl := last_nonWs_of_strip x hx hne
  have hstrip : pyStrip (pys "- " ++ x) = pys "- " ++ x := by
    apply pyStrip_eq_self_of
    · intro c hc
      cases hc
      rfl
    · intro c hc
      rw [List.getLast?_append] at hc
      cases hxl : x.getLast? with
      | none =>
        rw [List.getLast?_eq_none_iff] at hxl
        cases hne hxl
      | some w =>
        rw [hxl, Option.or_some, Option.some.injEq] at hc
        subst hc
        exact hl w hxl
  have hhead : (pys "- " ++ x).head? = some '-' := rfl
  have hdrop : (pys "- " ++ x).dropWhile
      (fun c => c = '-' || c = '*' || c = ' ') = x := by
    cases x with
    | nil => cases hne rfl
    | cons c0 t0 =>
      have h1 : c0 ≠ '-' := by
        intro h
        exact hd (by rw [h]; rfl)
      have h2 : c0 ≠ '*' := by
        intro h
        exact hs (by rw [h]; rfl)
      have h3 : c0 ≠ ' ' := by
        intro h
        have := hh c0 rfl
        rw [h] at this
        cases this
      show List.dropWhile _ ('-' :: ' ' :: c0 :: t0) = c0 :: t0
      rw [List.dropWhile_cons]
      simp only [show (decide (('-' : Char) = '-') || decide (('-' : Char) = '*')
          || decide (('-' : Char) = ' ')) = true from rfl, if_true]
      rw [List.dropWhile_cons]
      simp only [show (decide ((' ' : Char) = '-') || decide ((' ' : Char) = '*')
          || decide ((' ' : Char) = ' ')) = true from rfl, if_true]
      rw [List.dropWhile_cons]
      simp [h1, h2, h3]
  rw [depLine]
  simp only [hstrip, hhead, hdrop, hx]
  simp [List.isEmpty_iff, hne]

theorem containsSub_two_append (a b : Char) (u z : Chars)
    (hu : containsSub u [a, b] = false) (hz : z.head? ≠ some b) :
    containsSub (u ++ z) [a, b] = containsSub z [a, b] := by
  rw [containsSub, break_two_append a b u z hu hz]
  cases hb : breakAtSub z [a, b] <;> simp [containsSub, hb]

theorem dep_join_nlHash_free :
    ∀ (lines : List Chars),
      (∀ x ∈ lines, (∀ ch ∈ x, ch ≠ '\n') ∧ x.head? = some '-') →
      containsSub (joinWith ['\n'] lines) (pys "\n#") = false := by
  intro lines
  induction lines with
  | nil => intro _; rfl
  | cons x rest ih =>
    intro h
    cases rest with
    | nil =>
      rw [joinWith]
      exact containsSub_nlHash_of_no_nl x (h x (by simp)).1
    | cons y t =>
      rw [joinWith_cons_cons]
      rw [List.append_assoc]
      have hx := h x (by simp)
      have hcsx : containsSub x ['\n', '#'] = false :=
        containsSub_nlHash_of_no_nl x hx.1
      have hJ : (['\n'] ++ joinWith ['\n'] (y :: t)).head? ≠ some '#' := by simp
      rw [show containsSub (x ++ (['\n'] ++ joinWith ['\n'] (y :: t))) (pys "\n#")
          = containsSub (x ++ (['\n'] ++ joinWith ['\n'] (y :: t))) ['\n', '#']
          from rfl]
      rw [containsSub_two_append '\n' '#' x _ hcsx hJ]
      have hJhead : (joinWith ['\n'] (y :: t)).head? = some '-' := by
        rw [joinWith_head]
        · exact (h y (by simp)).2
        · intro hy
          have := (h y (by simp)).2
          rw [hy] at this
          cases this
      rw [show (['\n'] ++ joinWith ['\n'] (y :: t))
          = '\n' :: joinWith ['\n'] (y :: t) from rfl]
      rw [containsSub_cons]
      have hlit : litPre ['\n', '#'] ('\n' :: joinWith ['\n'] (y :: t)) = false := by
        cases hJ2 : joinWith ['\n'] (y :: t) with
        | nil => rw [hJ2] at hJhead; cases hJhead
        | cons j js =>
          rw [hJ2] at hJhead
          rw [List.head?_cons, Option.some.injEq] at hJhead
          subst hJhead
          simp [litPre]
      rw [hlit, Bool.false_or]
      exact ih fun v hv => h v (by simp [hv])

theorem matchHeaderAt_deps (w z : Chars) (hne : w ≠ [])
    (hh : ∀ c, w.head? = some c → pyWsChar c = false) :
    matchHeaderAt (pys "dependencies")
        ('#' :: (pys " Dependencies\n" ++ (w ++ z)))
      = some (w ++ z) := by
  cases w with
  | nil => cases hne rfl
  | cons c0 t0 =>
    have hc0 : pyWsChar c0 = false := hh c0 rfl
    show matchHeaderAt (pys "dependencies")
        ('#' :: (pys " Dependencies\n" ++ (c0 :: (t0 ++ z))))
      = some (c0 :: (t0 ++ z))
    rw [matchHeaderAt]
    have e2 : (pys " Dependencies\n" ++ (c0 :: (t0 ++ z))).dropWhile pyWsChar
        = pys "Dependencies\n" ++ (c0 :: (t0 ++ z)) := rfl
    have e3 : ciPre (pys "dependencies")
        (pys "Dependencies\n" ++ (c0 :: (t0 ++ z))) = true := rfl
    have e4 : (pys "Dependencies\n" ++ (c0 :: (t0 ++ z))).drop
        (pys "dependencies").length = '\n' :: (c0 :: (t0 ++ z)) := rfl
    simp only [e2, e3, e4, if_true, if_pos rfl]
    have e5 : ('\n' :: (c0 :: (t0 ++ z))).takeWhile pyWsChar = ['\n'] := by
      rw [List.takeWhile_cons]
      simp only [show pyWsChar '\n' = true from rfl, if_true]
      rw [List.takeWhile_cons, hc0]
      simp
    have e6 : ('\n' :: (c0 :: (t0 ++ z))).dropWhile pyWsChar
        = c0 :: (t0 ++ z) := by
      rw [List.dropWhile_cons]
      simp only [show pyWsChar '\n' = true from rfl, if_true]
      rw [List.dropWhile_cons, hc0]
      simp
    rw [e5, e6]
    simp [afterLastNewline]

theorem filterMap_depLine_map :
    ∀ (deps : List Chars),
      (∀ x ∈ deps, pyStrip x = x ∧ x ≠ [] ∧ x.head? ≠ some '-'
        ∧ x.head? ≠ some '*') →
      (deps.map fun x => pys "- " ++ x).filterMap depLine = deps := by
  intro deps
  induction deps with
  | nil => intro _; rfl
  | cons x rest ih =>
    intro h
    obtain ⟨h1, h2, h3, h4⟩ := h x (by simp)
    rw [List.map_cons, List.filterMap_cons, depLine_marker x h1 h2 h3 h4,
      ih fun v hv => h v (by simp [hv])]

theorem extractDeps_save_nonempty (d dep0 : Chars) (rest : List Chars) (c : Chars)
    (hdhash : ∀ ch ∈ d, ch ≠ '#')
    (hdeps : ∀ x ∈ dep0 :: rest, pyStrip x = x ∧ x ≠ [] ∧
      (∀ ch ∈ x, ch ≠ '\n') ∧ x.head? ≠ some '-' ∧ x.head? ≠ some '*') :
    extractDependencies (saveContent d (dep0 :: rest) c) = dep0 :: rest := by
  have f1 : ∀ x ∈ (dep0 :: rest).map (fun v => pys "- " ++ v),
      (∀ ch ∈ x, ch ≠ '\n') ∧ x.head? = some '-' := by
    intro x hx
    rw [List.mem_map] at hx
    obtain ⟨v, hv, hveq⟩ := hx
    subst hveq
    refine ⟨?_, rfl⟩
    intro ch hch
    rw [List.mem_append] at hch
    rcases hch with hch | hch
    · rw [show pys "- " = ['-', ' '] from rfl] at hch
      simp only [List.mem_cons, List.not_mem_nil, or_false] at hch
      rcases hch with h | h <;> subst h <;> decide
    · exact (hdeps v hv).2.2.1 ch hch
  have hlne : pys "- " ++ dep0 ≠ [] := by simp [pys]
  have f2 : (joinWith ['\n'] ((dep0 :: rest).map (fun v => pys "- " ++ v))).head?
      = some '-' := by
    rw [List.map_cons, joinWith_head _ _ _ hlne]
    rfl
  have f3 : joinWith ['\n'] ((dep0 :: rest).map (fun v => pys "- " ++ v)) ≠ [] := by
    intro h
    rw [h] at f2
    cases f2
  have f4 : ∀ cc, (joinWith ['\n'] ((dep0 :: rest).map
      (fun v => pys "- " ++ v))).head? = some cc → pyWsChar cc = false := by
    intro cc hcc
    rw [f2, Option.some.injEq] at hcc
    subst hcc
    rfl
  have f5 : containsSub (joinWith ['\n'] ((dep0 :: rest).map
      (fun v => pys "- " ++ v))) (pys "\n#") = false :=
    dep_join_nlHash_free _ f1
  have f6 : pyStrip (joinWith ['\n'] ((dep0 :: rest).map
      (fun v => pys "- " ++ v))) = joinWith ['\n'] ((dep0 :: rest).map
      (fun v => pys "- " ++ v)) := by
    apply pyStrip_eq_self_of
    · intro cc hcc
      exact f4 cc hcc
    · intro cc hcc
      obtain ⟨x, hx, hlast⟩ := joinWith_getLast_mem ['\n']
        ((dep0 :: rest).map (fun v => pys "- " ++ v))
        (by simp) (by
          intro x hx
          rw [List.mem_map] at hx
          obtain ⟨v, _, hveq⟩ := hx
          subst hveq
          simp [pys])
      rw [hlast] at hcc
      rw [List.mem_map] at hx
      obtain ⟨v, hv, hveq⟩ := hx
      subst hveq
      obtain ⟨hv1, hv2, _, _⟩ := hdeps v hv
      rw [List.getLast?_append] at hcc
      cases hvl : v.getLast? with
      | none =>
        rw [List.getLast?_eq_none_iff] at hvl
        cases hv2 hvl
      | some w =>
        rw [hvl, Option.or_some, Option.some.injEq] at hcc
        subst hcc
        exact last_nonWs_of_strip v hv1 hv2 w hvl
  have hB : saveContent d (dep0 :: rest) c
      = pys "# Description\n" ++ (d ++ (pys "\n\n# Dependencies\n"
        ++ ((joinWith ['\n'] ((dep0 :: rest).map (fun v => pys "- " ++ v)))
          ++ (pys "\n\n# Code\n```python\n" ++ (c ++ pys "\n```"))))) := by
    simp [saveContent, List.append_assoc]
  rw [extractDependencies, hB]
  have st1 : ∀ X : Chars, findHeaderTail (pys "dependencies")
      (pys "# Description\n" ++ X) = findHeaderTail (pys "dependencies") X :=
    fun X => rfl
  rw [st1]
  rw [findHeaderTail_append_of_no_hash (pys "dependencies") d _ hdhash]
  have st3 : ∀ Y : Chars, findHeaderTail (pys "dependencies")
      (pys "\n\n# Dependencies\n" ++ Y)
      = findHeaderTail (pys "dependencies")
          ('#' :: (pys " Dependencies\n" ++ Y)) := fun Y => rfl
  rw [st3]
  rw [findHeaderTail, matchHeaderAt_deps _ _ f3 f4]
  have hz3 : (pys "\n\n# Code\n```python\n" ++ (c ++ pys "\n```")).head?
      ≠ some '#' := by
    rw [show (pys "\n\n# Code\n```python\n" ++ (c ++ pys "\n```")).head?
        = some '\n' from rfl]
    simp
  have hbreak := break_two_append '\n' '#'
    (joinWith ['\n'] ((dep0 :: rest).map (fun v => pys "- " ++ v)))
    (pys "\n\n# Code\n```python\n" ++ (c ++ pys "\n```")) f5 hz3
  rw [show breakAtSub (pys "\n\n# Code\n```python\n" ++ (c ++ pys "\n```"))
      ['\n', '#'] = some (['\n'],
        '\n' :: '#' :: (pys " Code\n```python\n" ++ (c ++ pys "\n```")))
      from rfl] at hbreak
  have hbreak2 : breakAtSub
      ((joinWith ['\n'] ((dep0 :: rest).map (fun v => pys "- " ++ v)))
        ++ (pys "\n\n# Code\n```python\n" ++ (c ++ pys "\n```"))) (pys "\n#")
      = some ((joinWith ['\n'] ((dep0 :: rest).map (fun v => pys "- " ++ v)))
          ++ ['\n'],
        '\n' :: '#' :: (pys " Code\n```python\n" ++ (c ++ pys "\n```"))) := by
    rw [show (pys "\n#") = (['\n', '#'] : Chars) from rfl, hbreak]
    rfl
  simp only [sectionText, hbreak2]
  rw [pyStrip_append_nl _ f6 f3]
  rw [splitOnC_joinWith '\n' _ (by simp) (fun x hx => (f1 x hx).1)]
  exact filterMap_depLine_map (dep0 :: rest)
    (fun x hx => ⟨(hdeps x hx).1, (hdeps x hx).2.1, (hdeps x hx).2.2.2.1,
      (hdeps x hx).2.2.2.2⟩)

/-- Witness for C2 at a concrete two-parameter skill (one default). -/
theorem c2_tool_schema_counts_witness :
    (skillToToolDefinition
        ⟨"get_weather", "Get Weather", "w", true,
          [⟨"city", some "str"⟩, ⟨"units", some "str"⟩],
          [some "metric"]⟩).properties.length
        = ((⟨"get_weather", "Get Weather", "w", true,
            [⟨"city", some "str"⟩, ⟨"units", some "str"⟩],
            [some "metric"]⟩ : RSkill).args.filter
              (fun a => a.name != "self")).length
      ∧ (skillToToolDefinition
          ⟨"get_weather", "Get Weather", "w", true,
            [⟨"city", some "str"⟩, ⟨"units", some "str"⟩],
            [some "metric"]⟩).required
          = ((parseFunctionSignature
              [⟨"city", some "str"⟩, ⟨"units", some "str"⟩]
              [some "metric"]).filter
                (fun p => !p.hasDefault)).map ParameterInfo.name
      ∧ (skillToToolDefinition
          ⟨"get_weather", "Get Weather", "w", true,
            [⟨"city", some "str"⟩, ⟨"units", some "str"⟩],
            [some "metric"]⟩).required
          = ((List.enumFrom 0
              [(⟨"city", some "str"⟩ : PyArg), ⟨"units", some "str"⟩]).filter
              (fun q => q.2.name != "self" && decide (q.1 < 2 - 1))).map
              (fun q => q.2.name) :=
  c2_tool_schema_counts
    ⟨"get_weather", "Get Weather", "w", true,
      [⟨"city", some "str"⟩, ⟨"units", some "str"⟩], [some "metric"]⟩
    (by decide)

theorem breakAtSub_spec (sub : Chars) :
    ∀ (l p s : Chars), breakAtSub l sub = some (p, s) →
      l = p ++ s ∧ litPre sub s = true := by
  intro l
  induction l with
  | nil =>
    intro p s h
    rw [breakAtSub] at h
    by_cases hs : sub = []
    · rw [if_pos hs] at h
      rw [Option.some.injEq, Prod.mk.injEq] at h
      obtain ⟨h1, h2⟩ := h
      subst h1
      subst h2
      exact ⟨rfl, by rw [hs]; rfl⟩
    · rw [if_neg hs] at h
      cases h
  | cons x rest ih =>
    intro p s h
    rw [breakAtSub] at h
    by_cases hlp : litPre sub (x :: rest) = true
    · rw [if_pos hlp] at h
      rw [Option.some.injEq, Prod.mk.injEq] at h
      obtain ⟨h1, h2⟩ := h
      subst h1
      subst h2
      exact ⟨rfl, hlp⟩
    · rw [if_neg hlp] at h
      cases hb : breakAtSub rest sub with
      | none =>
        rw [hb] at h
        cases h
      | some pr =>
        rw [hb] at h
        obtain ⟨p', s'⟩ := pr
        simp only [Option.map_some'] at h
        rw [Option.some.injEq, Prod.mk.injEq] at h
        obtain ⟨h1, h2⟩ := h
        subst h2
        obtain ⟨ih1, ih2⟩ := ih p' s' hb
        refine ⟨?_, ih2⟩
        rw [← h1, List.cons_append, ← ih1]

theorem depLine_congr (a b : Chars) (h : pyStrip a = pyStrip b) :
    depLine a = depLine b := by
  simp only [depLine, h]

theorem pyStrip_cons_ws (ch : Char) (l : Chars) (h : pyWsChar ch = true) :
    pyStrip (ch :: l) = pyStrip l := by
  simp [pyStrip, List.dropWhile_cons, h]

theorem stripEndWs_append_ws (l : Chars) (ch : Char) (h : pyWsChar ch = true) :
    stripEndWs (l ++ [ch]) = stripEndWs l := by
  simp [stripEndWs, List.dropWhile_cons, h]

theorem stripEndWs_append_nonws (l : Chars) (ch : Char)
    (h : pyWsChar ch = false) : stripEndWs (l ++ [ch]) = l ++ [ch] := by
  simp [stripEndWs, List.dropWhile_cons, h]

theorem pyStrip_append_ws (l : Chars) (ch : Char) (h : pyWsChar ch = true) :
    pyStrip (l ++ [ch]) = pyStrip l := by
  rw [pyStrip, pyStrip, List.dropWhile_append]
  by_cases he : (l.dropWhile pyWsChar).isEmpty = true
  · rw [if_pos he]
    have h1 : List.dropWhile pyWsChar [ch] = [] := by
      simp [List.dropWhile_cons, h]
    rw [h1]
    rw [List.isEmpty_iff] at he
    rw [he]
  · rw [if_neg he]
    exact stripEndWs_append_ws _ ch h

theorem litPre_two_eq (a b : Char) (s : Chars) (h : litPre [a, b] s = true) :
    ∃ s2, s = a :: b :: s2 := by
  cases s with
  | nil => cases h
  | cons x t =>
    cases t with
    | nil => simp [litPre] at h
    | cons y t2 =>
      simp only [litPre, Bool.and_eq_true, decide_eq_true_eq] at h
      obtain ⟨h1, h2, _⟩ := h
      exact ⟨t2, by rw [h1, h2]⟩

theorem filterMap_depLine_none :
    ∀ (L : List Chars), (∀ x ∈ L, depLine x = none) →
      L.filterMap depLine = [] := by
  intro L
  induction L with
  | nil => intro _; rfl
  | cons x t ih =>
    intro h
    rw [List.filterMap_cons, h x (by simp)]
    exact ih fun y hy => h y (by simp [hy])

theorem splitOnC_append_char (sep ch : Char) (hch : ch ≠ sep) :
    ∀ a : Chars, ∃ u us, splitOnC sep a = us ++ [u]
      ∧ splitOnC sep (a ++ [ch]) = us ++ [u ++ [ch]] := by
  intro a
  induction a with
  | nil => exact ⟨[], [], rfl, by simp [splitOnC, hch]⟩
  | cons x a' ih =>
    obtain ⟨u, us, h1, h2⟩ := ih
    by_cases hx : x = sep
    · subst hx
      exact ⟨u, [] :: us, by simp [splitOnC, h1],
        by simp [List.cons_append, splitOnC, h2]⟩
    · cases us with
      | nil =>
        simp only [List.nil_append] at h1 h2
        exact ⟨x :: u, [], by simp [splitOnC, hx, h1],
          by simp [List.cons_append, splitOnC, hx, h2]⟩
      | cons v vs =>
        simp only [List.cons_append] at h1 h2
        exact ⟨u, (x :: v) :: vs, by simp [splitOnC, hx, h1],
          by simp [List.cons_append, splitOnC, hx, h2]⟩

theorem depLine_all_tail (ch : Char) (t : Chars) (hw : pyWsChar ch = true)
    (h : ∀ line ∈ splitOnC '\n' (ch :: t), depLine line = none) :
    ∀ line ∈ splitOnC '\n' t, depLine line = none := by
  intro line hline
  by_cases hch : ch = '\n'
  · subst hch
    exact h line (by rw [splitOnC, if_pos rfl]; exact List.mem_cons_of_mem _ hline)
  · cases hs : splitOnC '\n' t with
    | nil => cases splitOnC_ne_nil '\n' t hs
    | cons u us =>
      have hrw : splitOnC '\n' (ch :: t) = (ch :: u) :: us := by
        rw [splitOnC, if_neg hch, hs]
      rw [hs] at hline
      rcases List.mem_cons.mp hline with rfl | hm
      · calc depLine line = depLine (ch :: line) :=
            (depLine_congr (ch :: line) line (pyStrip_cons_ws ch line hw)).symm
          _ = none := h (ch :: line) (by rw [hrw]; exact List.mem_cons_self _ _)
      · exact h line (by rw [hrw]; exact List.mem_cons_of_mem _ hm)

theorem depLine_all_dropWhile (l : Chars)
    (h : ∀ line ∈ splitOnC '\n' l, depLine line = none) :
    ∀ line ∈ splitOnC '\n' (l.dropWhile pyWsChar), depLine line = none := by
  induction l with
  | nil => simpa using h
  | cons ch t ih =>
    cases hw : pyWsChar ch with
    | false =>
      simp only [List.dropWhile_cons, hw, Bool.false_eq_true, if_false]
      exact h
    | true =>
      simp only [List.dropWhile_cons, hw, if_true]
      exact ih (depLine_all_tail ch t hw h)

theorem depLine_all_init (Y : Chars) (ch : Char) (hw : pyWsChar ch = true)
    (h : ∀ line ∈ splitOnC '\n' (Y ++ [ch]), depLine line = none) :
    ∀ line ∈ splitOnC '\n' Y, depLine line = none := by
  intro line hline
  by_cases hch : ch = '\n'
  · subst hch
    have hs : splitOnC '\n' (Y ++ ['\n']) = splitOnC '\n' Y ++ [[]] := by
      have h0 := splitOnC_append_sep '\n' Y []
      simpa [splitOnC] using h0
    exact h line (by rw [hs]; exact List.mem_append_left _ hline)
  · obtain ⟨u, us, h1, h2⟩ := splitOnC_append_char '\n' ch hch Y
    rw [h1] at hline
    rcases List.mem_append.mp hline with hm | hm
    · exact h line (by rw [h2]; exact List.mem_append_left _ hm)
    · rw [List.mem_singleton] at hm
      subst hm
      calc depLine line = depLine (line ++ [ch]) :=
          (depLine_congr (line ++ [ch]) line (pyStrip_append_ws line ch hw)).symm
        _ = none := h (line ++ [ch])
            (by rw [h2]; exact List.mem_append_right _ (List.mem_singleton.mpr rfl))

theorem depLine_all_stripEnd (l : Chars)
    (h : ∀ line ∈ splitOnC '\n' l, depLine line = none) :
    ∀ line ∈ splitOnC '\n' (stripEndWs l), depLine line = none := by
  induction l using List.reverseRecOn with
  | nil => simpa [stripEndWs] using h
  | append_singleton Y ch ih =>
    cases hw : pyWsChar ch with
    | false =>
      rw [stripEndWs_append_nonws Y ch hw]
      exact h
    | true =>
      rw [stripEndWs_append_ws Y ch hw]
      exact ih (depLine_all_init Y ch hw h)

theorem depLine_all_pyStrip (l : Chars)
    (h : ∀ line ∈ splitOnC '\n' l, depLine line = none) :
    ∀ line ∈ splitOnC '\n' (pyStrip l), depLine line = none :=
  depLine_all_stripEnd _ (depLine_all_dropWhile l h)

theorem extractDeps_save_nil (d c : Chars)
    (hdhash : ∀ ch ∈ d, ch ≠ '#')
    (hcode : ∀ line ∈ splitOnC '\n' c, depLine line = none) :
    extractDependencies (saveContent d [] c) = [] := by
  have hB : saveContent d [] c
      = pys "# Description\n" ++ (d ++ (pys "\n\n# Dependencies\n"
        ++ (pys "\n\n# Code\n```python\n" ++ (c ++ pys "\n```")))) := by
    simp [saveContent, joinWith, List.append_assoc]
  rw [extractDependencies, hB]
  have st1 : ∀ X : Chars, findHeaderTail (pys "dependencies")
      (pys "# Description\n" ++ X) = findHeaderTail (pys "dependencies") X :=
    fun X => rfl
  rw [st1]
  rw [findHeaderTail_append_of_no_hash (pys "dependencies") d _ hdhash]
  have st2 : findHeaderTail (pys "dependencies")
      (pys "\n\n# Dependencies\n" ++ (pys "\n\n# Code\n```python\n"
        ++ (c ++ pys "\n```")))
      = some (pys "# Code\n```python\n" ++ (c ++ pys "\n```")) := rfl
  rw [st2]
  have hT : pys "# Code\n```python\n" ++ (c ++ pys "\n```")
      = pys "# Code\n```python" ++ ('\n' :: (c ++ pys "\n```")) := rfl
  have hu : containsSub (pys "# Code\n```python") ['\n', '#'] = false := by
    decide
  have hz : ('\n' :: (c ++ pys "\n```")).head? ≠ some '#' := by
    intro hcon
    exact absurd (Option.some.inj hcon) (by decide)
  have hbapp := break_two_append '\n' '#' (pys "# Code\n```python")
    ('\n' :: (c ++ pys "\n```")) hu hz
  cases hbz : breakAtSub ('\n' :: (c ++ pys "\n```")) ['\n', '#'] with
  | none =>
    rw [hbz] at hbapp
    have hb2 : breakAtSub (pys "# Code\n```python\n" ++ (c ++ pys "\n```"))
        (pys "\n#") = none := by
      rw [show (pys "\n#") = (['\n', '#'] : Chars) from rfl, hT]
      simpa using hbapp
    simp only [sectionText, hb2]
    apply filterMap_depLine_none
    apply depLine_all_pyStrip
    have hsplit : splitOnC '\n' (pys "# Code\n```python\n" ++ (c ++ pys "\n```"))
        = pys "# Code" :: pys "```python" :: (splitOnC '\n' c ++ [pys "```"]) := by
      rw [show pys "# Code\n```python\n" ++ (c ++ pys "\n```")
          = pys "# Code" ++ '\n' :: (pys "```python"
            ++ '\n' :: (c ++ '\n' :: pys "```")) from rfl]
      rw [splitOnC_append_sep, splitOnC_append_sep, splitOnC_append_sep]
      rfl
    rw [hsplit]
    intro line hline
    simp only [List.mem_cons, List.mem_append, List.mem_singleton,
      List.not_mem_nil, or_false] at hline
    rcases hline with rfl | rfl | hm | rfl
    · decide
    · decide
    · exact hcode line hm
    · decide
  | some pr =>
    obtain ⟨p, s⟩ := pr
    rw [hbz] at hbapp
    obtain ⟨hzps, hlit⟩ := breakAtSub_spec ['\n', '#']
      ('\n' :: (c ++ pys "\n```")) p s hbz
    obtain ⟨s2, hs2⟩ := litPre_two_eq '\n' '#' s hlit
    have hb2 : breakAtSub (pys "# Code\n```python\n" ++ (c ++ pys "\n```"))
        (pys "\n#") = some (pys "# Code\n```python" ++ p, s) := by
      rw [show (pys "\n#") = (['\n', '#'] : Chars) from rfl, hT, hbapp]
      rfl
    simp only [sectionText, hb2]
    apply filterMap_depLine_none
    apply depLine_all_pyStrip
    cases p with
    | nil =>
      have he : pys "# Code\n```python" ++ ([] : Chars)
          = pys "# Code\n```python" := by simp
      rw [he]
      decide
    | cons p0 p' =>
      rw [List.cons_append] at hzps
      injection hzps with hp0 hrest
      subst hs2
      have hsplit2 : splitOnC '\n' (pys "# Code\n```python" ++ (p0 :: p'))
          = pys "# Code" :: pys "```python" :: splitOnC '\n' p' := by
        rw [← hp0]
        rw [show pys "# Code\n```python" ++ ('\n' :: p')
            = pys "# Code" ++ '\n' :: (pys "```python" ++ '\n' :: p') from rfl]
        rw [splitOnC_append_sep, splitOnC_append_sep]
        rfl
      rw [hsplit2]
      intro line hline
      simp only [List.mem_cons] at hline
      rcases hline with rfl | rfl | hm
      · decide
      · decide
      · have hEq : splitOnC '\n' p' ++ splitOnC '\n' ('#' :: s2)
            = splitOnC '\n' c ++ [pys "```"] := by
          rw [← splitOnC_append_sep '\n' p' ('#' :: s2), ← hrest]
          rw [show (pys "\n```" : Chars) = '\n' :: pys "```" from rfl]
          rw [splitOnC_append_sep]
          rfl
        have hmem : line ∈ splitOnC '\n' c ++ [pys "```"] := by
          rw [← hEq]
          exact List.mem_append_left _ hm
        rcases List.mem_append.mp hmem with hm2 | hm2
        · exact hcode line hm2
        · rw [List.mem_singleton] at hm2
          subst hm2
          decide

theorem fenceOpenAt_code (c z : Chars) (hne : c ≠ [])
    (hh : ∀ ch, c.head? = some ch → pyWsChar ch = false) :
    fenceOpenAt (pys "```python\n" ++ (c ++ z)) = some (c ++ z) := by
  cases c with
  | nil => cases hne rfl
  | cons c0 t0 =>
    have hc0 : pyWsChar c0 = false := hh c0 rfl
    show fenceOpenAt ('`' :: (pys "``python\n" ++ (c0 :: (t0 ++ z))))
      = some (c0 :: (t0 ++ z))
    rw [fenceOpenAt]
    have e1 : litPre (pys "```python")
        ('`' :: (pys "``python\n" ++ (c0 :: (t0 ++ z)))) = true := rfl
    have e2 : ('`' :: (pys "``python\n" ++ (c0 :: (t0 ++ z)))).drop 9
        = '\n' :: (c0 :: (t0 ++ z)) := rfl
    have e3 : ('\n' :: (c0 :: (t0 ++ z))).takeWhile pyWsChar = ['\n'] := by
      rw [List.takeWhile_cons]
      simp only [show pyWsChar '\n' = true from rfl, if_true]
      rw [List.takeWhile_cons, hc0]
      simp
    have e4 : ('\n' :: (c0 :: (t0 ++ z))).dropWhile pyWsChar
        = c0 :: (t0 ++ z) := by
      rw [List.dropWhile_cons]
      simp only [show pyWsChar '\n' = true from rfl, if_true]
      rw [List.dropWhile_cons, hc0]
      simp
    simp only [e1, if_true, e2, e3, e4]
    simp [afterLastNewline]

theorem findFenceTail_code (c z : Chars) (hne : c ≠ [])
    (hh : ∀ ch, c.head? = some ch → pyWsChar ch = false) :
    findFenceTail (pys "```python\n" ++ (c ++ z)) = some (c ++ z) := by
  show findFenceTail ('`' :: (pys "``python\n" ++ (c ++ z))) = some (c ++ z)
  rw [findFenceTail]
  rw [show ('`' :: (pys "``python\n" ++ (c ++ z)))
      = pys "```python\n" ++ (c ++ z) from rfl]
  rw [fenceOpenAt_code c z hne hh]

theorem extractCode_save (d : Chars) (deps : List Chars) (c : Chars)
    (hdtick : ∀ ch ∈ d, ch ≠ '`')
    (hdepstick : ∀ x ∈ deps, ∀ ch ∈ x, ch ≠ '`')
    (hcne : c ≠ []) (hch : ∀ ch, c.head? = some ch → pyWsChar ch = false)
    (hcf : containsSub c (pys "```") = false) :
    extractCode (saveContent d deps c) = some (c ++ ['\n']) := by
  have hB : saveContent d deps c
      = pys "# Description\n" ++ (d ++ (pys "\n\n# Dependencies\n"
        ++ (joinWith ['\n'] (deps.map fun x => pys "- " ++ x)
          ++ (pys "\n\n# Code\n```python\n" ++ (c ++ pys "\n```"))))) := by
    simp [saveContent, List.append_assoc]
  rw [extractCode, hB]
  have ft1 : ∀ X : Chars, findFenceTail (pys "# Description\n" ++ X)
      = findFenceTail X := fun X => rfl
  rw [ft1]
  rw [findFenceTail_append_of_no_tick d _ hdtick]
  have ft2 : ∀ X : Chars, findFenceTail (pys "\n\n# Dependencies\n" ++ X)
      = findFenceTail X := fun X => rfl
  rw [ft2]
  have htickJ : ∀ ch ∈ joinWith ['\n'] (deps.map fun x => pys "- " ++ x),
      ch ≠ '`' := by
    apply joinWith_all ['\n'] (fun ch => ch ≠ '`')
    · intro x hx ch hch2
      rw [List.mem_map] at hx
      obtain ⟨v, hv, hveq⟩ := hx
      subst hveq
      rw [List.mem_append] at hch2
      rcases hch2 with hch2 | hch2
      · rw [show pys "- " = ['-', ' '] from rfl] at hch2
        simp only [List.mem_cons, List.not_mem_nil, or_false] at hch2
        rcases hch2 with h | h <;> subst h <;> decide
      · exact hdepstick v hv ch hch2
    · intro ch hch2
      simp only [List.mem_singleton] at hch2
      subst hch2
      decide
  rw [findFenceTail_append_of_no_tick _ _ htickJ]
  have ft3 : ∀ X : Chars, findFenceTail (pys "\n\n# Code\n```python\n" ++ X)
      = findFenceTail (pys "```python\n" ++ X) := fun X => rfl
  rw [show pys "\n\n# Code\n```python\n" ++ (c ++ pys "\n```")
      = pys "\n\n# Code\n" ++ (pys "```python\n" ++ (c ++ pys "\n```"))
      from rfl]
  rw [show findFenceTail (pys "\n\n# Code\n"
        ++ (pys "```python\n" ++ (c ++ pys "\n```")))
      = findFenceTail (pys "```python\n" ++ (c ++ pys "\n```")) from rfl]
  rw [findFenceTail_code c (pys "\n```") hcne hch]
  have hb3 := break_three_append '`' '`' '`' c (pys "\n```") hcf
    (by intro hcon; exact absurd (Option.some.inj hcon) (by decide))
    (by intro hcon; exact absurd (Option.some.inj hcon) (by decide))
  have hb4 : breakAtSub (c ++ pys "\n```") (pys "```")
      = some (c ++ ['\n'], pys "```") := by
    rw [show (pys "```" : Chars) = ['`', '`', '`'] from rfl, hb3]
    rfl
  simp only [hb4]

/-- Claim C9 (amended): saving a skill whose description is nonempty,
stripped, and free of `#` and backtick characters, whose dependency items
are stripped, nonempty, single-line, backtick-free and do not start with a
list marker, and whose code is nonempty, stripped, contains no triple
backtick, and — when the dependency list is empty — has no line that strips
to a `-`/`*` bullet, round-trips through the parser to exactly the same
description, ordered dependency list, and code body. -/
theorem c9_save_parse_roundtrip (d : Chars) (deps : List Chars) (c : Chars)
    (hd : pyStrip d = d) (hdne : d ≠ [])
    (hdhash : ∀ ch ∈ d, ch ≠ '#') (hdtick : ∀ ch ∈ d, ch ≠ '`')
    (hdeps : ∀ x ∈ deps, pyStrip x = x ∧ x ≠ [] ∧
      (∀ ch ∈ x, ch ≠ '\n') ∧ (∀ ch ∈ x, ch ≠ '`') ∧
      x.head? ≠ some '-' ∧ x.head? ≠ some '*')
    (hc : pyStrip c = c) (hcne : c ≠ [])
    (hcf : containsSub c (pys "```") = false)
    (hnil : deps = [] → ∀ line ∈ splitOnC '\n' c, depLine line = none) :
    parseContent (saveContent d deps c) = some ⟨d, deps, c⟩ := by
  have hch : ∀ ch, c.head? = some ch → pyWsChar ch = false :=
    head_nonWs_of_strip c hc
  have hcode := extractCode_save d deps c hdtick
    (fun x hx => (hdeps x hx).2.2.2.1) hcne hch hcf
  have hdesc : extractDescription (saveContent d deps c) = d := by
    have h1 : saveContent d deps c
        = pys "# Description\n" ++ (d ++ (pys "\n\n# Dependencies\n"
          ++ (joinWith ['\n'] (deps.map fun x => pys "- " ++ x)
            ++ (pys "\n\n# Code\n```python\n" ++ (c ++ pys "\n```"))))) := by
      simp [saveContent, List.append_assoc]
    have h2 : pys "\n\n# Dependencies\n"
          ++ (joinWith ['\n'] (deps.map fun x => pys "- " ++ x)
            ++ (pys "\n\n# Code\n```python\n" ++ (c ++ pys "\n```")))
        = '\n' :: '\n' :: '#' :: (pys " Dependencies\n"
          ++ (joinWith ['\n'] (deps.map fun x => pys "- " ++ x)
            ++ (pys "\n\n# Code\n```python\n" ++ (c ++ pys "\n```")))) := rfl
    rw [h1, h2]
    exact extractDescription_save d _ hd hdne hdhash
  have hdeps2 : extractDependencies (saveContent d deps c) = deps := by
    cases deps with
    | nil => exact extractDeps_save_nil d c hdhash (hnil rfl)
    | cons d0 rest =>
      exact extractDeps_save_nonempty d d0 rest c hdhash
        (fun x hx => ⟨(hdeps x hx).1, (hdeps x hx).2.1, (hdeps x hx).2.2.1,
          (hdeps x hx).2.2.2.2.1, (hdeps x hx).2.2.2.2.2⟩)
  have hie : c.isEmpty = false := by
    cases c with
    | nil => cases hcne rfl
    | cons a b => rfl
  simp only [parseContent, hcode, hdesc, hdeps2,
    pyStrip_append_nl c hc hcne, hie]
  simp

/-- Witness for C9 at a concrete skill document: description, one
dependency, and a two-line code body round-trip unchanged. -/
theorem c9_save_parse_roundtrip_witness :
    parseContent (saveContent
        (pys "Fetch a URL and return its status code.")
        [pys "requests"]
        (pys "def execute(url):\n    return 1"))
      = some ⟨pys "Fetch a URL and return its status code.",
          [pys "requests"], pys "def execute(url):\n    return 1"⟩ :=
  c9_save_parse_roundtrip
    (pys "Fetch a URL and return its status code.")
    [pys "requests"]
    (pys "def execute(url):\n    return 1")
    (by decide) (by decide) (by decide) (by decide) (by decide)
    (by decide) (by decide) (by decide) (by decide)
